import Mathlib

/-!
Verification of the TicketSim2 repository: a binary min-heap priority queue
(`HeapPriorityQueue.py`) and a discrete-event ticket-counter simulator
(`ticket_counter_simulator.py`).  The heap stores (key, value) items compared
by key only; the simulator schedules Arrival / ServiceStart / ServiceEnd
events in a future-event list backed by the heap.
-/

namespace HeapPQ

variable {K V : Type} [LinearOrder K]

/-- Index of the parent node: `(j - 1) // 2` (used only for `j ≥ 1`). -/
def parent (j : Nat) : Nat := (j - 1) / 2

/-- Index of the left child: `2 * j + 1`. -/
def left (j : Nat) : Nat := 2 * j + 1

/-- Index of the right child: `2 * j + 2`. -/
def right (j : Nat) : Nat := 2 * j + 2

/-- Swap the elements at indices `i` and `j` (out-of-range indices leave the
list unchanged; in the source both indices are always in range). -/
def swapL (d : List α) (i j : Nat) : List α :=
  match d[i]?, d[j]? with
  | some a, some b => (d.set i b).set j a
  | _, _ => d

/-- `_Item.__lt__`: items compare by key. -/
def itemLt (a b : K × V) : Bool := decide (a.1 < b.1)

/-- Compare the items at indices `i` and `j` by key (`self._data[i] < self._data[j]`). -/
def ltAt (d : List (K × V)) (i j : Nat) : Bool :=
  match d[i]?, d[j]? with
  | some a, some b => itemLt a b
  | _, _ => false

/-- `_upheap`: bubble the element at `j` up while it is smaller than its parent. -/
def upheap (d : List (K × V)) (j : Nat) : List (K × V) :=
  if 0 < j ∧ ltAt d j (parent j) then
    upheap (swapL d j (parent j)) (parent j)
  else d
termination_by j
decreasing_by
  simp only [parent]; omega

/-- The index of the smaller child of `j` (right child if it exists and is
smaller than the left child, otherwise the left child). -/
def small_child (d : List (K × V)) (j : Nat) : Nat :=
  if right j < d.length ∧ ltAt d (right j) (left j) then right j else left j

theorem lt_small_child (d : List (K × V)) (j : Nat) : j < small_child d j := by
  unfold small_child left right; split <;> omega

theorem small_child_lt (d : List (K × V)) (j : Nat) (h : left j < d.length) :
    small_child d j < d.length := by
  unfold small_child at *; unfold left right at *; split <;> omega

theorem length_swapL (d : List α) (i j : Nat) : (swapL d i j).length = d.length := by
  unfold swapL
  split <;> simp

/-- `_downheap`: push the element at `j` down, swapping with the smaller child
while that child is smaller. -/
def downheap (d : List (K × V)) (j : Nat) : List (K × V) :=
  if h : left j < d.length then
    if ltAt d (small_child d j) j then
      downheap (swapL d j (small_child d j)) (small_child d j)
    else d
  else d
termination_by d.length - j
decreasing_by
  have h1 := lt_small_child d j
  have h2 := small_child_lt d j h
  rw [length_swapL]; omega

/-- `add`: append the item and sift it up from the last position. -/
def add (d : List (K × V)) (k : K) (v : V) : List (K × V) :=
  upheap (d ++ [(k, v)]) d.length

/-- `_heapify`'s loop: run `_downheap` at positions `j, j-1, ..., 0`. -/
def heapifyFrom (d : List (K × V)) : Nat → List (K × V)
  | 0 => downheap d 0
  | j + 1 => heapifyFrom (downheap d (j + 1)) j

/-- `__init__(contents)`: store the items, heapify when more than one. -/
def heapInit (contents : List (K × V)) : List (K × V) :=
  if 1 < contents.length then heapifyFrom contents (parent (contents.length - 1))
  else contents

/-- `is_empty`. -/
def is_empty (d : List (K × V)) : Bool := d.length = 0

/-- `min`: return the root pair without removing it; error when empty. -/
def minPQ (d : List (K × V)) : Except String ((K × V) × List (K × V)) :=
  match d with
  | [] => .error "Priority queue is empty"
  | x :: _ => .ok (x, d)

/-- `remove_min`: swap the root with the last leaf, pop it, sift the new root
down; `none` (an exception in the source) when empty. -/
def removeMin (d : List (K × V)) : Option ((K × V) × List (K × V)) :=
  match d with
  | [] => none
  | x :: xs => some (x, downheap ((swapL (x :: xs) 0 (xs.length)).dropLast) 0)

/-- The min-heap invariant of the underlying array: every non-root entry has a
key that is at least its parent's key. -/
def MinHeap (d : List (K × V)) : Prop :=
  ∀ j a b, 0 < j → d[parent j]? = some a → d[j]? = some b → a.1 ≤ b.1

theorem parent_lt {j : Nat} (h : 0 < j) : parent j < j := by
  unfold parent; omega

theorem getElem?_swapL (d : List α) (i j k : Nat) (hi : i < d.length) (hj : j < d.length) :
    (swapL d i j)[k]? = if k = j then d[i]? else if k = i then d[j]? else d[k]? := by
  unfold swapL
  rw [List.getElem?_eq_getElem hi, List.getElem?_eq_getElem hj]
  by_cases hkj : k = j
  · subst hkj
    rw [List.getElem?_set_self (by simpa using hj)]
    simp
  · rw [List.getElem?_set_ne (fun h => hkj h.symm)]
    by_cases hki : k = i
    · subst hki
      rw [List.getElem?_set_self (by simpa using hi)]
      simp [hkj]
    · rw [List.getElem?_set_ne (fun h => hki h.symm)]
      simp [hkj, hki]

theorem cons_set_perm (t : List α) (m : Nat) (a b : α) (h : t[m]? = some b) :
    List.Perm (b :: t.set m a) (a :: t) := by
  induction t generalizing m with
  | nil => simp at h
  | cons c t ih =>
    cases m with
    | zero =>
      simp only [List.getElem?_cons_zero, Option.some.injEq] at h
      cases h
      simpa using List.Perm.swap a b t
    | succ m =>
      simp only [List.getElem?_cons_succ] at h
      simp only [List.set_cons_succ]
      have h1 : List.Perm (b :: c :: t.set m a) (c :: b :: t.set m a) := List.Perm.swap c b _
      have h2 : List.Perm (c :: b :: t.set m a) (c :: a :: t) := (ih m h).cons c
      have h3 : List.Perm (c :: a :: t) (a :: c :: t) := List.Perm.swap a c t
      exact (h1.trans h2).trans h3

theorem swapL_perm (d : List α) (i j : Nat) : List.Perm (swapL d i j) d := by
  unfold swapL
  cases hdi : d[i]? with
  | none => exact List.Perm.refl d
  | some a =>
    cases hdj : d[j]? with
    | none => exact List.Perm.refl d
    | some b =>
      simp only
      induction d generalizing i j with
      | nil => simp at hdi
      | cons c t ih =>
        cases i with
        | zero =>
          cases j with
          | zero =>
            simp only [List.getElem?_cons_zero, Option.some.injEq] at hdi hdj
            cases hdi; cases hdj
            simp
          | succ m =>
            simp only [List.getElem?_cons_zero, Option.some.injEq] at hdi
            simp only [List.getElem?_cons_succ] at hdj
            cases hdi
            simpa using cons_set_perm t m a b hdj
        | succ k =>
          cases j with
          | zero =>
            simp only [List.getElem?_cons_zero, Option.some.injEq] at hdj
            simp only [List.getElem?_cons_succ] at hdi
            cases hdj
            simp only [List.set_cons_succ, List.set_cons_zero]
            exact cons_set_perm t k b a hdi
          | succ m =>
            simp only [List.getElem?_cons_succ] at hdi hdj
            simpa using (ih k m hdi hdj).cons c

/-- Heap order holding everywhere except possibly on the edge from `j`'s
parent to `j`, with `j`'s children additionally bounded below by `j`'s
parent.  This is the precondition `_upheap` restores from. -/
def UpExc (d : List (K × V)) (j : Nat) : Prop :=
  (∀ i a b, 0 < i → i ≠ j → d[parent i]? = some a → d[i]? = some b → a.1 ≤ b.1) ∧
  (∀ c a b, 0 < j → parent c = j → 0 < c →
    d[parent j]? = some a → d[c]? = some b → a.1 ≤ b.1)

theorem ltAt_true {d : List (K × V)} {i j : Nat} (h : ltAt d i j = true) :
    ∃ a b, d[i]? = some a ∧ d[j]? = some b ∧ a.1 < b.1 := by
  unfold ltAt at h
  revert h
  cases hdi : d[i]? with
  | none => simp
  | some a =>
    cases hdj : d[j]? with
    | none => simp
    | some b =>
      intro h
      exact ⟨a, b, rfl, rfl, by simpa [itemLt] using h⟩

theorem ltAt_false {d : List (K × V)} {i j : Nat} (h : ¬ ltAt d i j = true) :
    ∀ a b, d[i]? = some a → d[j]? = some b → b.1 ≤ a.1 := by
  intro a b hdi hdj
  unfold ltAt at h
  rw [hdi, hdj] at h
  simp [itemLt] at h
  exact h

/-- `isDesc j i` holds when position `i` lies in the subtree rooted at `j`
(i.e. `j` is reached from `i` by iterating `parent`). -/
def isDesc (j i : Nat) : Bool :=
  if i = j then true
  else if i ≤ j then false
  else isDesc j (parent i)
termination_by i
decreasing_by unfold parent; omega

theorem isDesc_refl (j : Nat) : isDesc j j = true := by
  rw [isDesc]; simp

theorem isDesc_le : ∀ {i j : Nat}, isDesc j i = true → j ≤ i := by
  intro i
  induction i using Nat.strong_induction_on with
  | _ i ih =>
    intro j h
    rw [isDesc] at h
    split at h
    · omega
    · split at h
      · simp at h
      · have := ih (parent i) (by unfold parent; omega) h
        unfold parent at this; omega

theorem isDesc_of_gt {i j : Nat} (hij : j < i) (h : isDesc j (parent i) = true) :
    isDesc j i = true := by
  rw [isDesc]
  split
  · rfl
  · split
    · omega
    · exact h

theorem isDesc_parent_of {i j : Nat} (hne : i ≠ j) (h : isDesc j i = true) :
    isDesc j (parent i) = true := by
  rw [isDesc] at h
  split at h
  · omega
  · split at h
    · simp at h
    · exact h

theorem isDesc_zero (i : Nat) : isDesc 0 i = true := by
  induction i using Nat.strong_induction_on with
  | _ i ih =>
    rw [isDesc]
    split
    · rfl
    · split
      · omega
      · exact ih (parent i) (by unfold parent; omega)

theorem isDesc_child {c j : Nat} (hp : parent c = j) (hc : 0 < c) : isDesc j c = true := by
  have hj : j < c := by unfold parent at hp; omega
  exact isDesc_of_gt hj (hp ▸ isDesc_refl j)

theorem isDesc_trans : ∀ {c a b : Nat}, isDesc a b = true → isDesc b c = true →
    isDesc a c = true := by
  intro c
  induction c using Nat.strong_induction_on with
  | _ c ih =>
    intro a b hab hbc
    rw [isDesc] at hbc
    split at hbc
    · rename_i hcb; subst hcb; exact hab
    · split at hbc
      · simp at hbc
      · have hb := isDesc_le hab
        have : isDesc a (parent c) = true :=
          ih (parent c) (by unfold parent; omega) hab hbc
        exact isDesc_of_gt (by omega) this

theorem isDesc_strict_ge : ∀ {i j : Nat}, isDesc j i = true → i ≠ j → left j ≤ i := by
  intro i
  induction i using Nat.strong_induction_on with
  | _ i ih =>
    intro j h hne
    rw [isDesc] at h
    split at h
    · omega
    · split at h
      · simp at h
      · rename_i h1 h2
        by_cases hp : parent i = j
        · unfold parent at hp; unfold left; omega
        · have := ih (parent i) (by unfold parent; omega) h hp
          unfold left at *; unfold parent at this; omega

theorem not_isDesc_of_lt {i j : Nat} (h : i < j) : isDesc j i = false := by
  rw [isDesc]
  split
  · omega
  · split
    · rfl
    · omega

theorem isDesc_linear : ∀ {i a b : Nat}, isDesc a i = true → isDesc b i = true →
    isDesc a b = true ∨ isDesc b a = true := by
  intro i
  induction i using Nat.strong_induction_on with
  | _ i ih =>
    intro a b ha hb
    by_cases hia : i = a
    · subst hia; exact Or.inr hb
    · by_cases hib : i = b
      · subst hib; exact Or.inl ha
      · have ha' := isDesc_parent_of hia ha
        have hb' := isDesc_parent_of hib hb
        have hi : 0 < i := by
          have := isDesc_le ha; omega
        exact ih (parent i) (by unfold parent; omega) ha' hb'

theorem children_disjoint {j i : Nat} (hl : isDesc (left j) i = true)
    (hr : isDesc (right j) i = true) : False := by
  rcases isDesc_linear hl hr with h | h
  · have := isDesc_strict_ge h (by unfold left right; omega)
    unfold left right at *; omega
  · have := isDesc_le h
    unfold left right at this; omega

theorem children_of_desc : ∀ {i j : Nat}, isDesc j i = true → i ≠ j →
    ∃ c, parent c = j ∧ 0 < c ∧ isDesc c i = true := by
  intro i
  induction i using Nat.strong_induction_on with
  | _ i ih =>
    intro j h hne
    have hji : j < i := Nat.lt_of_le_of_ne (isDesc_le h) (Ne.symm hne)
    have h' := isDesc_parent_of hne h
    by_cases hp : parent i = j
    · exact ⟨i, hp, by omega, isDesc_refl i⟩
    · obtain ⟨c, hc1, hc2, hc3⟩ := ih (parent i) (by unfold parent; omega) h' hp
      refine ⟨c, hc1, hc2, ?_⟩
      have hcp := isDesc_le hc3
      exact isDesc_of_gt (by unfold parent at *; omega) hc3

theorem child_cases {c j : Nat} (hp : parent c = j) (hc : 0 < c) :
    c = left j ∨ c = right j := by
  unfold parent at hp; unfold left right; omega

/-- Heap order restricted to the subtree rooted at `r`: every strict descendant
of `r` has key at least its parent's key. -/
def HeapBelow (d : List (K × V)) (r : Nat) : Prop :=
  ∀ i a b, 0 < i → isDesc r i = true → i ≠ r →
    d[parent i]? = some a → d[i]? = some b → a.1 ≤ b.1

theorem HeapBelow_mono {d : List (K × V)} {j t : Nat} (h : HeapBelow d j)
    (ht : isDesc j t = true) : HeapBelow d t := by
  intro i a b hi hd hne hpa hpb
  have h1 : isDesc j i = true := isDesc_trans ht hd
  have h2 : i ≠ j := by
    have g1 := isDesc_strict_ge hd hne
    have g2 := isDesc_le ht
    unfold left at g1; omega
  exact h i a b hi h1 h2 hpa hpb

theorem MinHeap_iff_HeapBelow (d : List (K × V)) : MinHeap d ↔ HeapBelow d 0 := by
  constructor
  · intro h i a b hi _ _ hpa hpb
    exact h i a b hi hpa hpb
  · intro h j a b hj hpa hpb
    exact h j a b hj (isDesc_zero j) (by omega) hpa hpb

theorem HeapBelow_root_le {d : List (K × V)} {r : Nat} (h : HeapBelow d r) :
    ∀ i a b, isDesc r i = true → d[r]? = some a → d[i]? = some b → a.1 ≤ b.1 := by
  intro i
  induction i using Nat.strong_induction_on with
  | _ i ih =>
    intro a b hd hra hib
    by_cases hir : i = r
    · subst hir
      rw [hra] at hib
      cases hib
      exact le_refl _
    · have hi : 0 < i := by
        have := isDesc_strict_ge hd hir
        unfold left at this; omega
      have hpi : parent i < i := parent_lt hi
      have hpd : isDesc r (parent i) = true := isDesc_parent_of hir hd
      have hplen : parent i < d.length := by
        have hlen : i < d.length := by
          by_contra hc
          rw [List.getElem?_eq_none (by omega)] at hib
          simp at hib
        omega
      have hpa : d[parent i]? = some d[parent i] := List.getElem?_eq_getElem hplen
      have h1 : a.1 ≤ (d[parent i]).1 := ih (parent i) hpi a _ hpd hra hpa
      have h2 : (d[parent i]).1 ≤ b.1 := h i _ b hi hd hir hpa hib
      exact h1.trans h2

theorem lt_length_of_getElem? {l : List α} {i : Nat} {a : α} (h : l[i]? = some a) :
    i < l.length := by
  by_contra hc
  rw [List.getElem?_eq_none (by omega)] at h
  cases h

theorem small_child_cases (d : List (K × V)) (j : Nat) :
    small_child d j = left j ∨ small_child d j = right j := by
  unfold small_child; split
  · exact Or.inr rfl
  · exact Or.inl rfl

theorem parent_small_child (d : List (K × V)) (j : Nat) : parent (small_child d j) = j := by
  rcases small_child_cases d j with h | h
  · rw [h]; unfold parent left; omega
  · rw [h]; unfold parent right; omega

/-- The item at `small_child d j` has the smallest key among `j`'s children. -/
theorem small_child_le (d : List (K × V)) (j : Nat) {c : Nat}
    (hp : parent c = j) (hc : 0 < c) {asc b : K × V}
    (hsc : d[small_child d j]? = some asc) (hb : d[c]? = some b) : asc.1 ≤ b.1 := by
  have hclen : c < d.length := lt_length_of_getElem? hb
  rcases child_cases hp hc with hcc | hcc
  · subst hcc
    unfold small_child at hsc
    split at hsc
    · rename_i hcond
      obtain ⟨x, y, hx, hy, hxy⟩ := ltAt_true hcond.2
      rw [hx] at hsc; cases hsc
      rw [hy] at hb; cases hb
      exact le_of_lt hxy
    · rw [hsc] at hb; cases hb; exact le_refl _
  · subst hcc
    unfold small_child at hsc
    split at hsc
    · rw [hsc] at hb; cases hb; exact le_refl _
    · rename_i hcond
      have hnlt : ¬ ltAt d (right j) (left j) = true := by
        intro hlt; exact hcond ⟨hclen, hlt⟩
      exact ltAt_false hnlt b asc hb hsc

theorem downheap_outside : ∀ (n : Nat) (d : List (K × V)) (j : Nat), d.length - j ≤ n →
    ∀ k, isDesc j k = false → (downheap d j)[k]? = d[k]? := by
  intro n
  induction n with
  | zero =>
    intro d j hn k _
    rw [downheap]
    have hnl : ¬ left j < d.length := by unfold left; omega
    rw [dif_neg hnl]
  | succ n ih =>
    intro d j hn k hk
    rw [downheap]
    split
    · rename_i hl
      split
      · rename_i hlt
        have h1 : j < small_child d j := lt_small_child d j
        have h2 : small_child d j < d.length := small_child_lt d j hl
        have hdsc : isDesc j (small_child d j) = true :=
          isDesc_child (parent_small_child d j) (by omega)
        have hkj : k ≠ j := by
          intro h; subst h; rw [isDesc_refl] at hk; cases hk
        have hksc : isDesc (small_child d j) k = false := by
          cases hb : isDesc (small_child d j) k with
          | false => rfl
          | true => rw [isDesc_trans hdsc hb] at hk; cases hk
        have hknsc : k ≠ small_child d j := by
          intro h; subst h; rw [isDesc_refl] at hksc; cases hksc
        rw [ih (swapL d j (small_child d j)) (small_child d j)
          (by rw [length_swapL]; omega) k hksc]
        rw [getElem?_swapL d j (small_child d j) k (by omega) h2]
        rw [if_neg hknsc, if_neg hkj]
      · rfl
    · rfl

theorem downheap_perm : ∀ (n : Nat) (d : List (K × V)) (j : Nat), d.length - j ≤ n →
    List.Perm (downheap d j) d := by
  intro n
  induction n with
  | zero =>
    intro d j hn
    rw [downheap]
    have hnl : ¬ left j < d.length := by unfold left; omega
    rw [dif_neg hnl]
  | succ n ih =>
    intro d j hn
    rw [downheap]
    split
    · rename_i hl
      split
      · have h1 : j < small_child d j := lt_small_child d j
        have h2 : small_child d j < d.length := small_child_lt d j hl
        exact (ih (swapL d j (small_child d j)) (small_child d j)
          (by rw [length_swapL]; omega)).trans (swapL_perm d j (small_child d j))
      · exact List.Perm.refl d
    · exact List.Perm.refl d

theorem downheap_lb (v : K) : ∀ (n : Nat) (d : List (K × V)) (j : Nat), d.length - j ≤ n →
    (∀ i a, isDesc j i = true → d[i]? = some a → v ≤ a.1) →
    ∀ i a, isDesc j i = true → (downheap d j)[i]? = some a → v ≤ a.1 := by
  intro n
  induction n with
  | zero =>
    intro d j hn hpre i a hd hia
    rw [downheap] at hia
    have hnl : ¬ left j < d.length := by unfold left; omega
    rw [dif_neg hnl] at hia
    exact hpre i a hd hia
  | succ n ih =>
    intro d j hn hpre i a hd hia
    rw [downheap] at hia
    split at hia
    · rename_i hl
      split at hia
      · rename_i hlt
        have h1 : j < small_child d j := lt_small_child d j
        have h2 : small_child d j < d.length := small_child_lt d j hl
        have hjlen : j < d.length := by omega
        have hdsc : isDesc j (small_child d j) = true :=
          isDesc_child (parent_small_child d j) (by omega)
        have hswap := fun k => getElem?_swapL d j (small_child d j) k hjlen h2
        have hpre' : ∀ i' a', isDesc (small_child d j) i' = true →
            (swapL d j (small_child d j))[i']? = some a' → v ≤ a'.1 := by
          intro i' a' hd' hia'
          rw [hswap i'] at hia'
          by_cases hisc : i' = small_child d j
          · rw [if_pos hisc] at hia'
            exact hpre j a' (isDesc_refl j) hia'
          · have hij : i' ≠ j := by
              have := isDesc_le hd'; omega
            rw [if_neg hisc, if_neg hij] at hia'
            exact hpre i' a' (isDesc_trans hdsc hd') hia'
        by_cases hdsci : isDesc (small_child d j) i = true
        · exact ih (swapL d j (small_child d j)) (small_child d j)
            (by rw [length_swapL]; omega) hpre' i a hdsci hia
        · have hout := downheap_outside n (swapL d j (small_child d j)) (small_child d j)
            (by rw [length_swapL]; omega) i (by
              cases hb : isDesc (small_child d j) i with
              | false => rfl
              | true => exact absurd hb hdsci)
          rw [hout, hswap i] at hia
          have hisc : i ≠ small_child d j := by
            intro h; subst h; exact hdsci (isDesc_refl _)
          rw [if_neg hisc] at hia
          by_cases hij : i = j
          · rw [if_pos hij] at hia
            exact hpre (small_child d j) a hdsc hia
          · rw [if_neg hij] at hia
            exact hpre i a hd hia
      · exact hpre i a hd hia
    · exact hpre i a hd hia

theorem downheap_heapBelow : ∀ (n : Nat) (d : List (K × V)) (j : Nat), d.length - j ≤ n →
    HeapBelow d (left j) → HeapBelow d (right j) → HeapBelow (downheap d j) j := by
  intro n
  induction n with
  | zero =>
    intro d j hn hL hR
    rw [downheap]
    have hnl : ¬ left j < d.length := by unfold left; omega
    rw [dif_neg hnl]
    intro i a b hi hdesc hne hpa hib
    have hlen : i < d.length := lt_length_of_getElem? hib
    have := isDesc_strict_ge hdesc hne
    unfold left at *; omega
  | succ n ih =>
    intro d j hn hL hR
    rw [downheap]
    split
    · rename_i hl
      split
      · rename_i hlt
        -- swap with the smaller child, then recurse there
        have h1 : j < small_child d j := lt_small_child d j
        have h2 : small_child d j < d.length := small_child_lt d j hl
        have hjlen : j < d.length := by omega
        have hpsc : parent (small_child d j) = j := parent_small_child d j
        have hdsc : isDesc j (small_child d j) = true := isDesc_child hpsc (by omega)
        have hswap := fun k => getElem?_swapL d j (small_child d j) k hjlen h2
        obtain ⟨asc, aj, hdscv, hdjv, hltv⟩ := ltAt_true hlt
        have hscHB : HeapBelow d (small_child d j) := by
          rcases small_child_cases d j with h | h <;> rw [h] <;> assumption
        have hchild : ∀ r, small_child d j < r →
            HeapBelow d r → HeapBelow (swapL d j (small_child d j)) r := by
          intro r hr hHB i a b hi hd hne hpa hib
          have hile : r ≤ i := isDesc_le hd
          have hpile : r ≤ parent i := isDesc_le (isDesc_parent_of hne hd)
          rw [hswap i, if_neg (by omega), if_neg (by omega)] at hib
          rw [hswap (parent i), if_neg (by omega), if_neg (by omega)] at hpa
          exact hHB i a b hi hd hne hpa hib
        have hLsc : HeapBelow (swapL d j (small_child d j)) (left (small_child d j)) :=
          hchild _ (by unfold left; omega)
            (HeapBelow_mono hscHB (isDesc_child (by unfold parent left; omega) (by unfold left; omega)))
        have hRsc : HeapBelow (swapL d j (small_child d j)) (right (small_child d j)) :=
          hchild _ (by unfold right; omega)
            (HeapBelow_mono hscHB (isDesc_child (by unfold parent right; omega) (by unfold right; omega)))
        have ihres : HeapBelow (downheap (swapL d j (small_child d j)) (small_child d j))
            (small_child d j) :=
          ih (swapL d j (small_child d j)) (small_child d j)
            (by rw [length_swapL]; omega) hLsc hRsc
        have hout := downheap_outside n (swapL d j (small_child d j)) (small_child d j)
          (by rw [length_swapL]; omega)
        have hlb : ∀ i a, isDesc (small_child d j) i = true →
            (downheap (swapL d j (small_child d j)) (small_child d j))[i]? = some a →
            asc.1 ≤ a.1 := by
          apply downheap_lb asc.1 n _ _ (by rw [length_swapL]; omega)
          intro i' a' hd' hia'
          rw [hswap i'] at hia'
          by_cases hisc : i' = small_child d j
          · rw [if_pos hisc, hdjv] at hia'
            cases hia'
            exact le_of_lt hltv
          · have hij : i' ≠ j := by have := isDesc_le hd'; omega
            rw [if_neg hisc, if_neg hij] at hia'
            exact HeapBelow_root_le hscHB i' asc a' hd' hdscv hia'
        intro i a b hi hdesc hne hpa hib
        obtain ⟨c, hcp, hc0, hci⟩ := children_of_desc hdesc hne
        have hcgt : j < c := by unfold parent at hcp; omega
        by_cases hdsci : isDesc (small_child d j) i = true
        · by_cases hisc : i = small_child d j
          · subst hisc
            rw [hpsc] at hpa
            rw [hout j (not_isDesc_of_lt h1), hswap j, if_neg (by omega), if_pos rfl,
              hdscv] at hpa
            cases hpa
            exact hlb _ b (isDesc_refl _) hib
          · exact ihres i a b hi hdsci hisc hpa hib
        · have hksc : isDesc (small_child d j) i = false := by
            cases hb : isDesc (small_child d j) i with
            | false => rfl
            | true => exact absurd hb hdsci
          have hine_sc : i ≠ small_child d j := by
            intro h; subst h; exact hdsci (isDesc_refl _)
          have hine_j : i ≠ j := hne
          rw [hout i hksc, hswap i, if_neg hine_sc, if_neg hine_j] at hib
          by_cases hic : i = c
          · subst hic
            rw [hcp] at hpa
            rw [hout j (not_isDesc_of_lt h1), hswap j, if_neg (by omega), if_pos rfl,
              hdscv] at hpa
            cases hpa
            exact small_child_le d j hcp hc0 hdscv hib
          · have hpci : isDesc c (parent i) = true := isDesc_parent_of hic hci
            have hpout : isDesc (small_child d j) (parent i) = false := by
              cases hb : isDesc (small_child d j) (parent i) with
              | false => rfl
              | true =>
                have hstep : isDesc (parent i) i = true :=
                  isDesc_of_gt (parent_lt hi) (isDesc_refl _)
                rw [isDesc_trans hb hstep] at hksc
                cases hksc
            have hp_ne_sc : parent i ≠ small_child d j := by
              intro h; rw [h, isDesc_refl] at hpout; cases hpout
            have hp_ne_j : parent i ≠ j := by
              have := isDesc_le hpci; omega
            rw [hout (parent i) hpout, hswap (parent i), if_neg hp_ne_sc,
              if_neg hp_ne_j] at hpa
            rcases child_cases hcp hc0 with h | h
            · subst h; exact hL i a b hi hci hic hpa hib
            · subst h; exact hR i a b hi hci hic hpa hib
      · rename_i hlt
        intro i a b hi hdesc hne hpa hib
        obtain ⟨c, hcp, hc0, hci⟩ := children_of_desc hdesc hne
        by_cases hic : i = c
        · subst hic
          rw [hcp] at hpa
          have hsc2 : small_child d j < d.length := small_child_lt d j hl
          have hscsome : d[small_child d j]? = some d[small_child d j] :=
            List.getElem?_eq_getElem hsc2
          have hj_le_sc : a.1 ≤ (d[small_child d j]).1 := ltAt_false hlt _ _ hscsome hpa
          have hsc_le : (d[small_child d j]).1 ≤ b.1 :=
            small_child_le d j hcp hc0 hscsome hib
          exact hj_le_sc.trans hsc_le
        · rcases child_cases hcp hc0 with h | h
          · subst h; exact hL i a b hi hci hic hpa hib
          · subst h; exact hR i a b hi hci hic hpa hib
    · rename_i hnl
      intro i a b hi hdesc hne hpa hib
      have hlen : i < d.length := lt_length_of_getElem? hib
      have := isDesc_strict_ge hdesc hne
      unfold left at *; omega

theorem length_upheap : ∀ (j : Nat) (d : List (K × V)), (upheap d j).length = d.length := by
  intro j
  induction j using Nat.strong_induction_on with
  | _ j ih =>
    intro d
    rw [upheap]
    split
    · rename_i h
      rw [ih (parent j) (parent_lt h.1), length_swapL]
    · rfl

theorem upheap_perm : ∀ (j : Nat) (d : List (K × V)), List.Perm (upheap d j) d := by
  intro j
  induction j using Nat.strong_induction_on with
  | _ j ih =>
    intro d
    rw [upheap]
    split
    · rename_i h
      exact (ih (parent j) (parent_lt h.1) _).trans (swapL_perm d j (parent j))
    · exact List.Perm.refl d

theorem upheap_MinHeap : ∀ (j : Nat) (d : List (K × V)), UpExc d j → MinHeap (upheap d j) := by
  intro j
  induction j using Nat.strong_induction_on with
  | _ j ih =>
    intro d hexc
    rw [upheap]
    split
    · rename_i hcond
      obtain ⟨hj0, hlt⟩ := hcond
      obtain ⟨bj, bp, hdj, hdp, hblt⟩ := ltAt_true hlt
      have hjlen : j < d.length := lt_length_of_getElem? hdj
      have hplen : parent j < d.length := lt_length_of_getElem? hdp
      have hpj : parent j < j := parent_lt hj0
      have hswap := fun k => getElem?_swapL d j (parent j) k hjlen hplen
      apply ih (parent j) hpj
      constructor
      · intro i a b hi hip hpa hib
        by_cases hij : i = j
        · subst hij
          rw [hswap (parent i), if_pos rfl, hdj] at hpa
          cases hpa
          rw [hswap i, if_neg (by omega), if_pos rfl, hdp] at hib
          cases hib
          exact le_of_lt hblt
        · rw [hswap i, if_neg hip, if_neg hij] at hib
          by_cases hpp : parent i = parent j
          · rw [hswap (parent i), if_pos hpp, hdj] at hpa
            cases hpa
            have h1 : bp.1 ≤ b.1 := hexc.1 i bp b hi hij (hpp ▸ hdp) hib
            exact (le_of_lt hblt).trans h1
          · by_cases hpij : parent i = j
            · rw [hswap (parent i), if_neg (by omega), if_pos hpij, hdp] at hpa
              cases hpa
              exact hexc.2 i bp b hj0 hpij hi hdp hib
            · rw [hswap (parent i), if_neg hpp, if_neg hpij] at hpa
              exact hexc.1 i a b hi hij hpa hib
      · intro c a b hp0 hcp hc0 hpa hib
        have hpp : parent (parent j) < parent j := parent_lt hp0
        rw [hswap (parent (parent j)), if_neg (by omega), if_neg (by omega)] at hpa
        have hpar : a.1 ≤ bp.1 := hexc.1 (parent j) a bp hp0 (by omega) hpa hdp
        by_cases hcj : c = j
        · subst hcj
          rw [hswap c, if_neg (by omega), if_pos rfl, hdp] at hib
          cases hib
          exact hpar
        · have hcgt : parent j < c := by
            have hcp2 := hcp
            unfold parent at hcp2 ⊢
            omega
          rw [hswap c, if_neg (by omega), if_neg hcj] at hib
          have h2 : bp.1 ≤ b.1 := hexc.1 c bp b hc0 hcj (hcp ▸ hdp) hib
          exact hpar.trans h2
    · rename_i hcond
      intro i a b hi hpa hib
      by_cases hij : i = j
      · subst hij
        have hnlt : ¬ ltAt d i (parent i) = true := fun h => hcond ⟨hi, h⟩
        exact ltAt_false hnlt b a hib hpa
      · exact hexc.1 i a b hi hij hpa hib

theorem MinHeap_nil : MinHeap ([] : List (K × V)) := by
  intro j a b _ _ hib
  simp at hib

theorem add_MinHeap {d : List (K × V)} (h : MinHeap d) (k : K) (v : V) :
    MinHeap (add d k v) := by
  unfold add
  apply upheap_MinHeap
  constructor
  · intro i a b hi hij hpa hib
    have hilen : i < d.length + 1 := by
      have := lt_length_of_getElem? hib; simpa using this
    have hilt : i < d.length := by omega
    have hplt : parent i < d.length := by
      have := parent_lt hi; omega
    rw [List.getElem?_append_left hilt] at hib
    rw [List.getElem?_append_left hplt] at hpa
    exact h i a b hi hpa hib
  · intro c a b _ hcp hc0 _ hib
    have hclen : c < d.length + 1 := by
      have := lt_length_of_getElem? hib; simpa using this
    have : c = left d.length ∨ c = right d.length := child_cases hcp hc0
    unfold left right at this; omega

theorem removeMin_eq_none {d : List (K × V)} : removeMin d = none ↔ d = [] := by
  cases d <;> simp [removeMin]

theorem removeMin_root {d : List (K × V)} {x : K × V} {d2 : List (K × V)}
    (h : removeMin d = some (x, d2)) : d[0]? = some x := by
  cases d with
  | nil => cases h
  | cons y xs =>
    unfold removeMin at h
    injection h with h1
    injection h1 with hx hd2
    cases hx
    simp

/-- After `remove_min`, the remaining contents together with the removed root
are a permutation of the original contents. -/
theorem removeMin_perm {d : List (K × V)} {x : K × V} {d2 : List (K × V)}
    (h : removeMin d = some (x, d2)) : List.Perm (x :: d2) d := by
  cases d with
  | nil => cases h
  | cons y xs =>
    unfold removeMin at h
    injection h with h1
    injection h1 with hx hd2
    subst hd2
    cases hx
    have hlen : (swapL (x :: xs) 0 xs.length).length = xs.length + 1 := by
      rw [length_swapL]; rfl
    have hlast : (swapL (x :: xs) 0 xs.length)[xs.length]? = some x := by
      rw [getElem?_swapL (x :: xs) 0 xs.length xs.length (by simp) (by simp)]
      rw [if_pos rfl]
      simp
    have hlastq : (swapL (x :: xs) 0 xs.length).getLast? = some x := by
      rw [List.getLast?_eq_getElem?, hlen]
      simpa using hlast
    have hsplit : (swapL (x :: xs) 0 xs.length).dropLast ++ [x] =
        swapL (x :: xs) 0 xs.length :=
      List.dropLast_append_getLast? x hlastq
    have hperm1 : List.Perm (downheap ((swapL (x :: xs) 0 xs.length).dropLast) 0)
        ((swapL (x :: xs) 0 xs.length).dropLast) :=
      downheap_perm _ _ 0 (le_refl _)
    have hperm2 : List.Perm (x :: (swapL (x :: xs) 0 xs.length).dropLast)
        (swapL (x :: xs) 0 xs.length) := by
      have := List.perm_append_singleton x ((swapL (x :: xs) 0 xs.length).dropLast)
      rw [hsplit] at this
      exact this.symm
    exact ((hperm1.cons x).trans hperm2).trans (swapL_perm (x :: xs) 0 xs.length)

theorem removeMin_length {d : List (K × V)} {x : K × V} {d2 : List (K × V)}
    (h : removeMin d = some (x, d2)) : d2.length + 1 = d.length := by
  simpa using (removeMin_perm h).length_eq

theorem removeMin_mem {d : List (K × V)} {x : K × V} {d2 : List (K × V)}
    (h : removeMin d = some (x, d2)) : x ∈ d :=
  (removeMin_perm h).mem_iff.mp (List.mem_cons_self x d2)

theorem removeMin_subset {d : List (K × V)} {x : K × V} {d2 : List (K × V)}
    (h : removeMin d = some (x, d2)) : ∀ e ∈ d2, e ∈ d :=
  fun e he => (removeMin_perm h).mem_iff.mp (List.mem_cons_of_mem x he)

theorem removeMin_countP {d : List (K × V)} {x : K × V} {d2 : List (K × V)}
    (h : removeMin d = some (x, d2)) (p : K × V → Bool) :
    d.countP p = d2.countP p + (if p x then 1 else 0) := by
  have hp := (removeMin_perm h).countP_eq p
  rw [← hp, List.countP_cons]

theorem is_empty_iff (d : List (K × V)) : is_empty d = true ↔ d = [] := by
  cases d <;> simp [is_empty]

theorem removeMin_MinHeap {d : List (K × V)} {x : K × V} {d2 : List (K × V)}
    (hd : MinHeap d) (h : removeMin d = some (x, d2)) : MinHeap d2 := by
  cases d with
  | nil => cases h
  | cons y xs =>
    unfold removeMin at h
    injection h with h1
    injection h1 with hx hd2
    subst hd2
    cases hx
    rw [MinHeap_iff_HeapBelow]
    have hlen : (swapL (x :: xs) 0 xs.length).length = xs.length + 1 := by
      rw [length_swapL]; rfl
    have hdd : ∀ r, 1 ≤ r → HeapBelow ((swapL (x :: xs) 0 xs.length).dropLast) r := by
      intro r hr i a b hi hdc hne hpa hib
      have hilen : i < ((swapL (x :: xs) 0 xs.length).dropLast).length :=
        lt_length_of_getElem? hib
      rw [List.length_dropLast, hlen] at hilen
      have hpi : parent i < i := parent_lt hi
      have hige : r ≤ i := isDesc_le hdc
      have hpge : r ≤ parent i := isDesc_le (isDesc_parent_of hne hdc)
      rw [List.getElem?_dropLast, if_pos (by rw [hlen]; omega),
        getElem?_swapL (x :: xs) 0 xs.length i (by simp) (by simp),
        if_neg (by omega), if_neg (by omega)] at hib
      rw [List.getElem?_dropLast, if_pos (by rw [hlen]; omega),
        getElem?_swapL (x :: xs) 0 xs.length (parent i) (by simp) (by simp),
        if_neg (by omega), if_neg (by omega)] at hpa
      exact hd i a b hi hpa hib
    exact downheap_heapBelow _ _ 0 (le_refl _)
      (hdd (left 0) (by unfold left; omega)) (hdd (right 0) (by unfold right; omega))

/-- With the heap invariant, `remove_min` returns an item whose key is minimal. -/
theorem removeMin_min {d : List (K × V)} {x : K × V} {d2 : List (K × V)}
    (hd : MinHeap d) (h : removeMin d = some (x, d2)) :
    ∀ e ∈ d, x.1 ≤ e.1 := by
  intro e he
  obtain ⟨n, hn⟩ := List.mem_iff_getElem?.mp he
  exact HeapBelow_root_le ((MinHeap_iff_HeapBelow d).mp hd) n x e (isDesc_zero n)
    (removeMin_root h) hn

/-- Repeatedly `remove_min` until the error case (empty queue). -/
def drain (d : List (K × V)) : List (K × V) :=
  match h : removeMin d with
  | none => []
  | some (x, d2) => x :: drain d2
termination_by d.length
decreasing_by
  have := removeMin_length h
  omega

theorem drain_nil : drain ([] : List (K × V)) = [] := by
  rw [drain]
  split
  · rfl
  · rename_i x d2 heq
    simp [removeMin] at heq

theorem drain_cons {d : List (K × V)} {x : K × V} {d2 : List (K × V)}
    (hrm : removeMin d = some (x, d2)) : drain d = x :: drain d2 := by
  rw [drain]
  split
  · rename_i heq
    rw [heq] at hrm
    cases hrm
  · rename_i y d3 heq
    rw [heq] at hrm
    injection hrm with h1
    injection h1 with hx hd
    cases hx
    cases hd
    rfl

/-- Call `remove_min` exactly `n` times, collecting the results and the final
heap contents; `none` when some call hits the empty queue. -/
def drainN : Nat → List (K × V) → Option (List (K × V) × List (K × V))
  | 0, d => some ([], d)
  | n + 1, d =>
    match removeMin d with
    | none => none
    | some (x, d2) => (drainN n d2).map (fun p => (x :: p.1, p.2))

theorem drainN_succ {n : Nat} {d : List (K × V)} {x : K × V} {d2 : List (K × V)}
    (hrm : removeMin d = some (x, d2)) :
    drainN (n + 1) d = (drainN n d2).map (fun p => (x :: p.1, p.2)) := by
  simp only [drainN]
  rw [hrm]

theorem drain_perm : ∀ (n : Nat) (d : List (K × V)), d.length ≤ n → MinHeap d →
    List.Perm (drain d) d := by
  intro n
  induction n with
  | zero =>
    intro d hn _
    have hd : d = [] := by
      cases d with
      | nil => rfl
      | cons y xs => simp at hn
    subst hd
    rw [drain_nil]
  | succ n ih =>
    intro d hn hd
    cases hrm : removeMin d with
    | none =>
      rw [removeMin_eq_none.mp hrm]
      rw [removeMin_eq_none.mp hrm] at hrm ⊢
      rw [drain_nil]
    | some p =>
      obtain ⟨x, d2⟩ := p
      rw [drain_cons hrm]
      have hlen := removeMin_length hrm
      have h1 : List.Perm (drain d2) d2 := ih d2 (by omega) (removeMin_MinHeap hd hrm)
      exact (h1.cons x).trans (removeMin_perm hrm)

theorem drain_sorted : ∀ (n : Nat) (d : List (K × V)), d.length ≤ n → MinHeap d →
    List.Pairwise (fun a b : K × V => a.1 ≤ b.1) (drain d) := by
  intro n
  induction n with
  | zero =>
    intro d hn _
    have hd : d = [] := by
      cases d with
      | nil => rfl
      | cons y xs => simp at hn
    subst hd
    rw [drain_nil]
    exact List.Pairwise.nil
  | succ n ih =>
    intro d hn hd
    cases hrm : removeMin d with
    | none =>
      rw [removeMin_eq_none.mp hrm, drain_nil]
      exact List.Pairwise.nil
    | some p =>
      obtain ⟨x, d2⟩ := p
      rw [drain_cons hrm]
      have hlen := removeMin_length hrm
      have hd2 : MinHeap d2 := removeMin_MinHeap hd hrm
      constructor
      · intro b hb
        have hb2 : b ∈ d2 := (drain_perm n d2 (by omega) hd2).mem_iff.mp hb
        have hbd : b ∈ d := (removeMin_perm hrm).mem_iff.mp (List.mem_cons_of_mem x hb2)
        exact removeMin_min hd hrm b hbd
      · exact ih d2 (by omega) hd2

theorem drainN_drain : ∀ (n : Nat) (d : List (K × V)), d.length = n →
    drainN n d = some (drain d, []) := by
  intro n
  induction n using Nat.strong_induction_on with
  | _ n ih =>
    intro d hn
    cases hrm : removeMin d with
    | none =>
      have hd := removeMin_eq_none.mp hrm
      subst hd
      simp at hn
      subst hn
      rw [drain_nil]
      rfl
    | some p =>
      obtain ⟨x, d2⟩ := p
      have hlen := removeMin_length hrm
      have hn1 : n = d2.length + 1 := by omega
      subst hn1
      rw [drain_cons hrm, drainN_succ hrm, ih d2.length (by omega) d2 rfl]
      rfl

/-- Insert a list of (key, value) pairs one by one with `add`. -/
def addAll : List (K × V) → List (K × V) → List (K × V)
  | d, [] => d
  | d, p :: ps => addAll (add d p.1 p.2) ps

theorem add_perm (d : List (K × V)) (k : K) (v : V) :
    List.Perm (add d k v) (d ++ [(k, v)]) := upheap_perm _ _

theorem add_countP (d : List (K × V)) (k : K) (v : V) (p : K × V → Bool) :
    (add d k v).countP p = d.countP p + (if p (k, v) then 1 else 0) := by
  have hp := (add_perm d k v).countP_eq p
  rw [hp, List.countP_append, List.countP_cons]
  simp

theorem mem_add {d : List (K × V)} {k : K} {v : V} {e : K × V} :
    e ∈ add d k v ↔ e ∈ d ∨ e = (k, v) := by
  rw [(add_perm d k v).mem_iff]
  simp

theorem addAll_perm : ∀ (ps d : List (K × V)), List.Perm (addAll d ps) (d ++ ps) := by
  intro ps
  induction ps with
  | nil => intro d; simp [addAll]
  | cons p ps ih =>
    intro d
    have h1 := ih (add d p.1 p.2)
    have h2 : List.Perm (add d p.1 p.2 ++ ps) ((d ++ [p]) ++ ps) :=
      (add_perm d p.1 p.2).append_right ps
    rw [addAll]
    refine (h1.trans (h2.trans ?_))
    rw [List.append_assoc]
    exact List.Perm.refl _

theorem addAll_MinHeap : ∀ (ps d : List (K × V)), MinHeap d → MinHeap (addAll d ps) := by
  intro ps
  induction ps with
  | nil => intro d h; exact h
  | cons p ps ih =>
    intro d h
    exact ih (add d p.1 p.2) (add_MinHeap h p.1 p.2)

theorem heapifyFrom_perm : ∀ (j : Nat) (d : List (K × V)),
    List.Perm (heapifyFrom d j) d := by
  intro j
  induction j with
  | zero => intro d; exact downheap_perm d.length d 0 (le_refl _)
  | succ j ih =>
    intro d
    rw [heapifyFrom]
    exact (ih (downheap d (j + 1))).trans (downheap_perm d.length d (j + 1) (by omega))

theorem downheap_HB_ge {d : List (K × V)} {j : Nat}
    (h : ∀ t, j < t → HeapBelow d t) : ∀ t, j ≤ t → HeapBelow (downheap d j) t := by
  have hj : HeapBelow (downheap d j) j :=
    downheap_heapBelow d.length d j (by omega)
      (h (left j) (by unfold left; omega)) (h (right j) (by unfold right; omega))
  intro t ht
  rcases Nat.eq_or_lt_of_le ht with heq | hlt
  · subst heq; exact hj
  · cases hdj : isDesc j t with
    | true => exact HeapBelow_mono hj hdj
    | false =>
      intro i a b hi hd hne hpa hib
      have hout := downheap_outside d.length d j (by omega)
      have hti : isDesc j i = false := by
        cases hb : isDesc j i with
        | false => rfl
        | true =>
          rcases isDesc_linear hb hd with h1 | h1
          · rw [h1] at hdj; cases hdj
          · rw [not_isDesc_of_lt hlt] at h1; cases h1
      have htp : isDesc j (parent i) = false := by
        cases hb : isDesc j (parent i) with
        | false => rfl
        | true =>
          have hstep : isDesc (parent i) i = true :=
            isDesc_of_gt (parent_lt hi) (isDesc_refl _)
          rw [isDesc_trans hb hstep] at hti
          cases hti
      rw [hout i hti] at hib
      rw [hout (parent i) htp] at hpa
      exact h t hlt i a b hi hd hne hpa hib

theorem heapifyFrom_MinHeap : ∀ (j : Nat) (d : List (K × V)),
    (∀ t, j < t → HeapBelow d t) → MinHeap (heapifyFrom d j) := by
  intro j
  induction j with
  | zero =>
    intro d h
    rw [MinHeap_iff_HeapBelow]
    exact downheap_HB_ge h 0 (le_refl 0)
  | succ j ih =>
    intro d h
    rw [heapifyFrom]
    exact ih (downheap d (j + 1)) (fun t ht => downheap_HB_ge h t (by omega))

theorem heapInit_MinHeap (ps : List (K × V)) : MinHeap (heapInit ps) := by
  unfold heapInit
  split
  · rename_i hlen
    apply heapifyFrom_MinHeap
    intro t ht i a b hi hd hne hpa hib
    have hilen : i < ps.length := lt_length_of_getElem? hib
    have := isDesc_strict_ge hd hne
    unfold parent at ht
    unfold left at this
    omega
  · rename_i hlen
    intro j a b hj hpa hib
    have := lt_length_of_getElem? hib
    omega

theorem heapInit_perm (ps : List (K × V)) : List.Perm (heapInit ps) ps := by
  unfold heapInit
  split
  · exact heapifyFrom_perm _ ps
  · exact List.Perm.refl ps

/-- One public operation on the priority queue: `add(key, value)` or `remove_min()`. -/
inductive HeapOp (K V : Type) where
  | add (k : K) (v : V)
  | remove_min

/-- Run a sequence of operations from a given heap state; `none` when some
`remove_min` hits the empty queue (an exception in the source). -/
def applyOps : List (HeapOp K V) → List (K × V) → Option (List (K × V))
  | [], d => some d
  | HeapOp.add k v :: ops, d => applyOps ops (add d k v)
  | HeapOp.remove_min :: ops, d =>
    match removeMin d with
    | none => none
    | some (_, d2) => applyOps ops d2

theorem applyOps_MinHeap : ∀ (ops : List (HeapOp K V)) (d d2 : List (K × V)),
    MinHeap d → applyOps ops d = some d2 → MinHeap d2 := by
  intro ops
  induction ops with
  | nil =>
    intro d d2 hd h
    cases h
    exact hd
  | cons op ops ih =>
    intro d d2 hd h
    cases op with
    | add k v => exact ih _ d2 (add_MinHeap hd k v) h
    | remove_min =>
      rw [applyOps] at h
      cases hrm : removeMin d with
      | none => rw [hrm] at h; cases h
      | some p =>
        rw [hrm] at h
        exact ih _ d2 (removeMin_MinHeap hd hrm) h

/-- C1: after any sequence of `add`/`remove_min` calls starting from the empty
heap, the underlying array satisfies the min-heap invariant: for every
non-root index `j`, the key at `j` is at least the key at `(j-1)/2`. -/
theorem C1_heap_invariant_after_ops (ops : List (HeapOp K V)) (d : List (K × V))
    (h : applyOps ops [] = some d) : MinHeap d :=
  applyOps_MinHeap ops [] d MinHeap_nil h

/-- C2: inserting `n` pairs into an empty heap with `add` and then calling
`remove_min` `n` times succeeds, drains the queue to empty, and returns the
inserted pairs in non-decreasing key order. -/
theorem C2_add_then_drain_sorted (ps : List (K × V)) :
    drainN ps.length (addAll [] ps) = some (drain (addAll [] ps), []) ∧
    List.Perm (drain (addAll [] ps)) ps ∧
    List.Pairwise (fun a b : K × V => a.1 ≤ b.1) (drain (addAll [] ps)) := by
  have hmh : MinHeap (addAll [] ps) := addAll_MinHeap ps [] MinHeap_nil
  have hperm : List.Perm (addAll [] ps) ps := by simpa using addAll_perm ps []
  have hlen : (addAll [] ps).length = ps.length := hperm.length_eq
  refine ⟨?_, ?_, ?_⟩
  · rw [← hlen]
    exact drainN_drain _ _ rfl
  · exact (drain_perm _ _ (le_refl _) hmh).trans hperm
  · exact drain_sorted _ _ (le_refl _) hmh

/-- C3: bulk construction (`__init__` with contents, which heapifies) followed
by a full drain produces the same key sequence as draining a heap built by
individual `add` calls: both drains are permutations of the input sorted by
key, so they agree up to the order of values with equal keys. -/
theorem C3_heapify_drain_equiv (ps : List (K × V)) :
    List.Perm (drain (heapInit ps)) ps ∧
    List.Perm (drain (addAll [] ps)) ps ∧
    List.Pairwise (fun a b : K × V => a.1 ≤ b.1) (drain (heapInit ps)) ∧
    List.Pairwise (fun a b : K × V => a.1 ≤ b.1) (drain (addAll [] ps)) ∧
    (drain (heapInit ps)).map Prod.fst = (drain (addAll [] ps)).map Prod.fst := by
  have hmh1 : MinHeap (heapInit ps) := heapInit_MinHeap ps
  have hmh2 : MinHeap (addAll [] ps) := addAll_MinHeap ps [] MinHeap_nil
  have hp1 : List.Perm (drain (heapInit ps)) ps :=
    (drain_perm _ _ (le_refl _) hmh1).trans (heapInit_perm ps)
  have hp2 : List.Perm (drain (addAll [] ps)) ps :=
    (drain_perm _ _ (le_refl _) hmh2).trans (by simpa using addAll_perm ps [])
  have hs1 : List.Pairwise (fun a b : K × V => a.1 ≤ b.1) (drain (heapInit ps)) :=
    drain_sorted _ _ (le_refl _) hmh1
  have hs2 : List.Pairwise (fun a b : K × V => a.1 ≤ b.1) (drain (addAll [] ps)) :=
    drain_sorted _ _ (le_refl _) hmh2
  refine ⟨hp1, hp2, hs1, hs2, ?_⟩
  have hperm : List.Perm ((drain (heapInit ps)).map Prod.fst)
      ((drain (addAll [] ps)).map Prod.fst) := (hp1.trans hp2.symm).map Prod.fst
  have hsm1 : List.Sorted (· ≤ ·) ((drain (heapInit ps)).map Prod.fst) :=
    List.pairwise_map.mpr hs1
  have hsm2 : List.Sorted (· ≤ ·) ((drain (addAll [] ps)).map Prod.fst) :=
    List.pairwise_map.mpr hs2
  exact List.eq_of_perm_of_sorted hperm hsm1 hsm2

/-- C9: `min` and `remove_min` on the empty queue fail with an error (not a
silent no-op), and `min` on a non-empty queue returns the root pair with the
stored contents unchanged. -/
theorem C9_min_error_and_peek (d : List (K × V)) :
    (is_empty d = true →
      minPQ d = Except.error "Priority queue is empty" ∧ removeMin d = none) ∧
    (∀ x, d[0]? = some x → minPQ d = Except.ok (x, d)) := by
  constructor
  · intro he
    have hd : d = [] := by
      cases d with
      | nil => rfl
      | cons y xs => simp [is_empty] at he
    subst hd
    exact ⟨rfl, rfl⟩
  · intro x hx
    cases d with
    | nil => simp at hx
    | cons y xs =>
      simp only [List.getElem?_cons_zero, Option.some.injEq] at hx
      cases hx
      rfl

/-- `_upheap` with explicit recursion fuel: `none` when the fuel runs out. -/
def upheapF (fuel : Nat) (d : List (K × V)) (j : Nat) : Option (List (K × V)) :=
  if 0 < j ∧ ltAt d j (parent j) then
    match fuel with
    | 0 => none
    | f + 1 => upheapF f (swapL d j (parent j)) (parent j)
  else some d

/-- `_downheap` with explicit recursion fuel: `none` when the fuel runs out. -/
def downheapF (fuel : Nat) (d : List (K × V)) (j : Nat) : Option (List (K × V)) :=
  if left j < d.length then
    if ltAt d (small_child d j) j then
      match fuel with
      | 0 => none
      | f + 1 => downheapF f (swapL d j (small_child d j)) (small_child d j)
    else some d
  else some d

/-- C10: the recursive helpers terminate within explicit bounds.  `_upheap`
strictly decreases its index (`parent j < j`), `_downheap` strictly increases
it while staying inside the array, and the fueled versions never exhaust fuel
`j` (resp. `length - j`), so all heap operations are total. -/
theorem C10_sift_terminates (fuel j : Nat) (d : List (K × V)) :
    (0 < j → parent j < j) ∧
    (left j < d.length → j < small_child d j ∧ small_child d j < d.length) ∧
    (j ≤ fuel → upheapF fuel d j = some (upheap d j)) ∧
    (d.length - j ≤ fuel → downheapF fuel d j = some (downheap d j)) := by
  refine ⟨fun h => parent_lt h,
    fun h => ⟨lt_small_child d j, small_child_lt d j h⟩, ?_, ?_⟩
  · intro hj
    induction fuel generalizing d j with
    | zero =>
      have hj0 : j = 0 := by omega
      subst hj0
      rw [upheapF, upheap]
      have hc : ¬ (0 < 0 ∧ ltAt d 0 (parent 0) = true) := by
        intro hc; omega
      rw [if_neg hc, if_neg hc]
    | succ f ih =>
      rw [upheapF, upheap]
      by_cases hc : 0 < j ∧ ltAt d j (parent j) = true
      · rw [if_pos hc, if_pos hc]
        exact ih _ _ (by have := parent_lt hc.1; omega)
      · rw [if_neg hc, if_neg hc]
  · intro hj
    induction fuel generalizing d j with
    | zero =>
      rw [downheapF, downheap]
      have hc : ¬ left j < d.length := by unfold left at *; omega
      rw [if_neg hc, dif_neg hc]
    | succ f ih =>
      rw [downheapF, downheap]
      by_cases hl : left j < d.length
      · rw [if_pos hl, dif_pos hl]
        by_cases hlt : ltAt d (small_child d j) j = true
        · rw [if_pos hlt, if_pos hlt]
          have h1 := lt_small_child d j
          have h2 := small_child_lt d j hl
          exact ih _ _ (by rw [length_swapL]; omega)
        · rw [if_neg hlt, if_neg hlt]
      · rw [if_neg hl, dif_neg hl]

/-- Witness for C1: the invariant after `add(3,0); add(1,1); remove_min()`. -/
theorem C1_heap_invariant_after_ops_witness : MinHeap [((3 : ℤ), (0 : ℕ))] :=
  C1_heap_invariant_after_ops
    [HeapOp.add 3 0, HeapOp.add 1 1, HeapOp.remove_min] [((3 : ℤ), (0 : ℕ))]
    (by simp [applyOps, add, upheap, removeMin, downheap, swapL, ltAt, itemLt, parent,
      small_child, left, right])

/-- Witness for C9: `min` on a concrete one-element queue. -/
theorem C9_min_error_and_peek_witness :
    minPQ [((1 : ℤ), (0 : ℕ))] = Except.ok (((1 : ℤ), (0 : ℕ)), [((1 : ℤ), (0 : ℕ))]) :=
  (C9_min_error_and_peek [((1 : ℤ), (0 : ℕ))]).2 ((1 : ℤ), (0 : ℕ)) (by simp)

/-- Witness for C10: the fueled helpers agree with the recursive ones on a
concrete two-element heap. -/
theorem C10_sift_terminates_witness :
    upheapF 2 [((2 : ℤ), (0 : ℕ)), ((1 : ℤ), (1 : ℕ))] 1 =
      some (upheap [((2 : ℤ), (0 : ℕ)), ((1 : ℤ), (1 : ℕ))] 1) ∧
    downheapF 2 [((2 : ℤ), (0 : ℕ)), ((1 : ℤ), (1 : ℕ))] 0 =
      some (downheap [((2 : ℤ), (0 : ℕ)), ((1 : ℤ), (1 : ℕ))] 0) :=
  ⟨(C10_sift_terminates 2 1 [((2 : ℤ), (0 : ℕ)), ((1 : ℤ), (1 : ℕ))]).2.2.1 (by omega),
   (C10_sift_terminates 2 0 [((2 : ℤ), (0 : ℕ)), ((1 : ℤ), (1 : ℕ))]).2.2.2 (by simp)⟩

end HeapPQ

namespace TicketSim

open HeapPQ

/-- The three event kinds of the simulator (`"ARRIVAL"`, `"SERVICE_START"`,
`"SERVICE_END"` strings in the source). -/
inductive EType where
  | arrival
  | service_start
  | service_end
deriving DecidableEq

/-- `Event(time, event_type, customer_id)`.  Times are idealized as rationals
(floats in the source). -/
structure Event where
  time : ℚ
  event_type : EType
  customer_id : Nat
deriving DecidableEq

/-- A per-customer record: `{"arrival": t}` at arrival, with `"service_start"`
added when service begins (`none` models the key being absent). -/
structure CustRec where
  arrival : ℚ
  service_start : Option ℚ
deriving DecidableEq

/-- The `self.metrics` dictionary. -/
structure Metrics where
  total_wait_time : ℚ
  num_served : Nat
  server_busy_time : List ℚ
  simulation_end : ℚ
deriving DecidableEq

/-- The mutable state of a `TicketCounterSim` instance. -/
structure SimState where
  num_servers : Nat
  service_time : ℚ
  future_events : List (ℚ × Event)
  waiting_line : List Nat
  servers : List (Option Nat)
  customers : List (Nat × CustRec)
  metrics : Metrics
  current_time : ℚ
  queue_length_history : List Nat
  utilization_history : List ℚ
  time_history : List ℚ
  cumulative_utilization_history : List ℚ
deriving DecidableEq

/-- Errors the Python code can raise while handling an event: `KeyError` on a
missing customer id or record key, `IndexError` on a bad list index. -/
inductive SimErr where
  | keyError (cid : Nat)
  | indexError (i : Nat)
deriving DecidableEq

/-- Python dict lookup `self.customers[cid]`. -/
def lookupC : List (Nat × CustRec) → Nat → Option CustRec
  | [], _ => none
  | (k, r) :: t, cid => if k = cid then some r else lookupC t cid

/-- Python dict assignment `self.customers[cid] = r`. -/
def setC : List (Nat × CustRec) → Nat → CustRec → List (Nat × CustRec)
  | [], cid, r => [(cid, r)]
  | (k, r0) :: t, cid, r => if k = cid then (cid, r) :: t else (k, r0) :: setC t cid r

/-- First idle slot (`for i, s in enumerate(self.servers): if s is None`). -/
def firstIdle : List (Option Nat) → Option Nat
  | [] => none
  | none :: _ => some 0
  | some _ :: t => (firstIdle t).map (· + 1)

/-- First slot serving `cid` (`for i, s in enumerate(self.servers): if s == cid`). -/
def findServing (cid : Nat) : List (Option Nat) → Option Nat
  | [] => none
  | none :: t => (findServing cid t).map (· + 1)
  | some c :: t => if c = cid then some 0 else (findServing cid t).map (· + 1)

/-- `sum(1 for s in self.servers if s is not None)`. -/
def countBusy : List (Option Nat) → Nat
  | [] => 0
  | none :: t => countBusy t
  | some _ :: t => countBusy t + 1

/-- `_arrival`: record the arrival time, seat the customer at the first idle
server (scheduling an immediate `SERVICE_START`) or append to the waiting line. -/
def arrivalH (s : SimState) (ev : Event) : SimState :=
  let r : CustRec := { arrival := s.current_time, service_start := none }
  let s1 := { s with customers := setC s.customers ev.customer_id r }
  match firstIdle s1.servers with
  | some i =>
    { s1 with servers := s1.servers.set i (some ev.customer_id),
              future_events := add s1.future_events s1.current_time
                ⟨s1.current_time, EType.service_start, ev.customer_id⟩ }
  | none => { s1 with waiting_line := s1.waiting_line ++ [ev.customer_id] }

/-- `_service_start`: stamp the service start, accumulate the wait, schedule
the `SERVICE_END` after the fixed service duration.  `KeyError` when the
customer record is absent. -/
def serviceStartH (s : SimState) (ev : Event) : Except SimErr SimState :=
  match lookupC s.customers ev.customer_id with
  | none => Except.error (SimErr.keyError ev.customer_id)
  | some r =>
    Except.ok { s with
      customers := setC s.customers ev.customer_id
        { r with service_start := some s.current_time },
      metrics := { s.metrics with
        total_wait_time := s.metrics.total_wait_time + (s.current_time - r.arrival) },
      future_events := add s.future_events (s.current_time + s.service_time)
        ⟨s.current_time + s.service_time, EType.service_end, ev.customer_id⟩ }

/-- `_service_end`: bump the served counters, then look for the serving slot;
when found, free it, accumulate its busy time, and seat the head of the
waiting line (scheduling its `SERVICE_START`); when no slot holds the subject
the loop simply finds nothing and the handler returns normally. -/
def serviceEndH (s : SimState) (ev : Event) : Except SimErr SimState :=
  let s1 := { s with metrics := { s.metrics with
    num_served := s.metrics.num_served + 1,
    simulation_end := s.current_time } }
  match findServing ev.customer_id s1.servers with
  | none => Except.ok s1
  | some i =>
    match lookupC s1.customers ev.customer_id with
    | none => Except.error (SimErr.keyError ev.customer_id)
    | some r =>
      match r.service_start with
      | none => Except.error (SimErr.keyError ev.customer_id)
      | some st =>
        match s1.metrics.server_busy_time[i]? with
        | none => Except.error (SimErr.indexError i)
        | some busy =>
          let s2 := { s1 with
            servers := s1.servers.set i none,
            metrics := { s1.metrics with
              server_busy_time :=
                s1.metrics.server_busy_time.set i (busy + (s1.current_time - st)) } }
          match s2.waiting_line with
          | [] => Except.ok s2
          | c :: rest =>
            Except.ok { s2 with
              waiting_line := rest,
              servers := s2.servers.set i (some c),
              future_events := add s2.future_events s2.current_time
                ⟨s2.current_time, EType.service_start, c⟩ }

/-- The "Record Metrics After Event" block of `step`: append the current time,
waiting-line length, instantaneous utilization and cumulative utilization to
the four history series. -/
def record (s2 : SimState) : SimState :=
  let instant_util : ℚ := (countBusy s2.servers : ℚ) / (s2.num_servers : ℚ)
  let total_busy : ℚ := s2.metrics.server_busy_time.sum
  let total_possible : ℚ := (s2.num_servers : ℚ) * max s2.current_time 1
  let cumulative_util : ℚ :=
    if 0 < total_possible then total_busy / total_possible else 0
  { s2 with
    time_history := s2.time_history ++ [s2.current_time],
    queue_length_history := s2.queue_length_history ++ [s2.waiting_line.length],
    utilization_history := s2.utilization_history ++ [instant_util],
    cumulative_utilization_history :=
      s2.cumulative_utilization_history ++ [cumulative_util] }

/-- `step`: return `(false, s)` when no events remain; otherwise pop the
earliest event, advance the clock, dispatch the handler, then append the four
metric samples and return `(true, _)`. -/
def step (s : SimState) : Except SimErr (Bool × SimState) :=
  if is_empty s.future_events then Except.ok (false, s)
  else
    match removeMin s.future_events with
    | none => Except.ok (false, s)
    | some ((t, ev), fe) =>
      let s1 := { s with future_events := fe, current_time := t }
      let hres : Except SimErr SimState :=
        match ev.event_type with
        | EType.arrival => Except.ok (arrivalH s1 ev)
        | EType.service_start => serviceStartH s1 ev
        | EType.service_end => serviceEndH s1 ev
      match hres with
      | Except.error e => Except.error e
      | Except.ok s2 => Except.ok (true, record s2)

/-- `_schedule_initial_arrivals`: add one `ARRIVAL` per customer at cumulative
interarrival offsets (`random.expovariate` samples are passed in explicitly). -/
def scheduleArrivals (fe : List (ℚ × Event)) (t : ℚ) (i : Nat) :
    List ℚ → List (ℚ × Event)
  | [] => fe
  | x :: rest =>
    scheduleArrivals (add fe (t + x) ⟨t + x, EType.arrival, i⟩) (t + x) (i + 1) rest

/-- `__init__`: fresh state with all arrival events pre-scheduled; `inter` is
the list of sampled interarrival gaps (its length is the customer count). -/
def initState (ns : Nat) (st : ℚ) (inter : List ℚ) : SimState :=
  { num_servers := ns,
    service_time := st,
    future_events := scheduleArrivals [] 0 0 inter,
    waiting_line := [],
    servers := List.replicate ns none,
    customers := [],
    metrics := { total_wait_time := 0, num_served := 0,
                 server_busy_time := List.replicate ns 0, simulation_end := 0 },
    current_time := 0,
    queue_length_history := [],
    utilization_history := [],
    time_history := [],
    cumulative_utilization_history := [] }

/-- Run `step` up to `fuel` times, stopping at the terminal `false` result. -/
def runFuel : Nat → SimState → Except SimErr SimState
  | 0, s => Except.ok s
  | f + 1, s =>
    match step s with
    | Except.error e => Except.error e
    | Except.ok (cont, s1) => if cont then runFuel f s1 else Except.ok s1

/-- States reachable from `s0` by `step` calls. -/
inductive Reach (s0 : SimState) : SimState → Prop where
  | refl : Reach s0 s0
  | next {s b s1} : Reach s0 s → step s = Except.ok (b, s1) → Reach s0 s1

/-- Number of pending events of a given kind. -/
def countEv (fe : List (ℚ × Event)) (ty : EType) : Nat :=
  fe.countP (fun e => e.2.event_type = ty)

/-- Number of pending events for a given customer id. -/
def countCid (fe : List (ℚ × Event)) (cid : Nat) : Nat :=
  fe.countP (fun e => e.2.customer_id = cid)

/-- The customer occupies some server slot. -/
def inSlot (sv : List (Option Nat)) (cid : Nat) : Prop := some cid ∈ sv

/-- Termination measure: every processed event decreases it by exactly one
(3 per pending arrival, 2 per pending service start or waiting customer,
1 per pending service end). -/
def W (s : SimState) : Nat :=
  3 * countEv s.future_events EType.arrival +
  2 * countEv s.future_events EType.service_start +
  countEv s.future_events EType.service_end +
  2 * s.waiting_line.length

/-- The reachability invariant of the simulator: the future-event list is a
min-heap of timely events, each customer has at most one pending event whose
kind matches the customer's phase (arriving / seated awaiting start / in
service), seated and waiting customers are mutually exclusive, the served
count balances the pending work against the customer total `n`, and the
accumulated busy times and recorded histories satisfy their bounds. -/
structure Inv (n : Nat) (s : SimState) : Prop where
  ns_pos : 0 < s.num_servers
  st_nonneg : 0 ≤ s.service_time
  servers_len : s.servers.length = s.num_servers
  busy_len : s.metrics.server_busy_time.length = s.num_servers
  heap : MinHeap s.future_events
  time_nonneg : 0 ≤ s.current_time
  ev_time : ∀ e ∈ s.future_events, s.current_time ≤ e.1
  conserve : s.metrics.num_served + countEv s.future_events EType.arrival +
    countEv s.future_events EType.service_start +
    countEv s.future_events EType.service_end + s.waiting_line.length = n
  wait_busy : s.waiting_line ≠ [] → ∀ sl ∈ s.servers, sl ≠ none
  ev_unique : ∀ cid, countCid s.future_events cid ≤ 1
  arr_fresh : ∀ e ∈ s.future_events, e.2.event_type = EType.arrival →
    ¬ inSlot s.servers e.2.customer_id ∧ e.2.customer_id ∉ s.waiting_line
  start_ok : ∀ e ∈ s.future_events, e.2.event_type = EType.service_start →
    inSlot s.servers e.2.customer_id ∧
    ∃ r, lookupC s.customers e.2.customer_id = some r
  end_ok : ∀ e ∈ s.future_events, e.2.event_type = EType.service_end →
    inSlot s.servers e.2.customer_id ∧
    ∃ r st, lookupC s.customers e.2.customer_id = some r ∧
      r.service_start = some st ∧ st ≤ s.current_time ∧
      ∀ (i : Nat) (b : ℚ), s.servers[i]? = some (some e.2.customer_id) →
        s.metrics.server_busy_time[i]? = some b → b ≤ st
  slot_unique : ∀ (i j cid : Nat), s.servers[i]? = some (some cid) →
    s.servers[j]? = some (some cid) → i = j
  slot_event : ∀ (i cid : Nat), s.servers[i]? = some (some cid) →
    ∃ e ∈ s.future_events, e.2.customer_id = cid ∧
      (e.2.event_type = EType.service_start ∨ e.2.event_type = EType.service_end)
  slot_wait : ∀ cid, inSlot s.servers cid → cid ∉ s.waiting_line
  wait_noev : ∀ cid ∈ s.waiting_line,
    (∀ e ∈ s.future_events, e.2.customer_id ≠ cid) ∧
    ∃ r, lookupC s.customers cid = some r
  wait_nodup : s.waiting_line.Nodup
  busy_nonneg : ∀ b ∈ s.metrics.server_busy_time, 0 ≤ b
  busy_le : ∀ b ∈ s.metrics.server_busy_time, b ≤ s.current_time
  util_hist : ∀ u ∈ s.utilization_history, 0 ≤ u ∧ u ≤ 1
  cum_hist : ∀ u ∈ s.cumulative_utilization_history, 0 ≤ u ∧ u ≤ 1

theorem lookupC_setC_self (m : List (Nat × CustRec)) (cid : Nat) (r : CustRec) :
    lookupC (setC m cid r) cid = some r := by
  induction m with
  | nil => simp [setC, lookupC]
  | cons p t ih =>
    obtain ⟨k, r0⟩ := p
    rw [setC]
    by_cases hk : k = cid
    · rw [if_pos hk, lookupC, if_pos rfl]
    · rw [if_neg hk, lookupC, if_neg hk]
      exact ih

theorem lookupC_setC_ne (m : List (Nat × CustRec)) {cid cid' : Nat} (r : CustRec)
    (h : cid' ≠ cid) : lookupC (setC m cid r) cid' = lookupC m cid' := by
  induction m with
  | nil =>
    simp only [setC, lookupC]
    rw [if_neg (fun hc => h hc.symm)]
  | cons p t ih =>
    obtain ⟨k, r0⟩ := p
    rw [setC]
    by_cases hk : k = cid
    · rw [if_pos hk, lookupC, if_neg (by omega), lookupC, if_neg (by omega)]
    · rw [if_neg hk, lookupC, lookupC]
      by_cases hk' : k = cid'
      · rw [if_pos hk', if_pos hk']
      · rw [if_neg hk', if_neg hk']
        exact ih

theorem firstIdle_none : ∀ {sv : List (Option Nat)}, firstIdle sv = none →
    ∀ sl ∈ sv, sl ≠ none := by
  intro sv
  induction sv with
  | nil => intro _ sl h; simp at h
  | cons a t ih =>
    intro h sl hsl
    cases a with
    | none => simp [firstIdle] at h
    | some c =>
      rw [firstIdle] at h
      rcases List.mem_cons.mp hsl with h1 | h1
      · subst h1; simp
      · exact ih (by cases hfi : firstIdle t <;> simp [hfi] at h ⊢) sl h1

theorem firstIdle_some : ∀ {sv : List (Option Nat)} {i : Nat}, firstIdle sv = some i →
    sv[i]? = some none := by
  intro sv
  induction sv with
  | nil => intro i h; simp [firstIdle] at h
  | cons a t ih =>
    intro i h
    cases a with
    | none =>
      rw [firstIdle] at h
      injection h with h
      subst h
      simp
    | some c =>
      rw [firstIdle] at h
      cases hfi : firstIdle t with
      | none => rw [hfi] at h; simp at h
      | some i0 =>
        rw [hfi] at h
        simp at h
        subst h
        simpa using ih hfi

theorem findServing_none {cid : Nat} : ∀ {sv : List (Option Nat)},
    findServing cid sv = none → ¬ inSlot sv cid := by
  intro sv
  induction sv with
  | nil => intro _ h; simp [inSlot] at h
  | cons a t ih =>
    intro h hmem
    cases a with
    | none =>
      rw [findServing] at h
      rcases List.mem_cons.mp hmem with h1 | h1
      · cases h1
      · exact ih (by cases hfi : findServing cid t <;> simp [hfi] at h ⊢) h1
    | some c =>
      rw [findServing] at h
      by_cases hc : c = cid
      · rw [if_pos hc] at h; cases h
      · rw [if_neg hc] at h
        rcases List.mem_cons.mp hmem with h1 | h1
        · injection h1 with h1; exact hc h1.symm
        · exact ih (by cases hfi : findServing cid t <;> simp [hfi] at h ⊢) h1

theorem findServing_some {cid : Nat} : ∀ {sv : List (Option Nat)} {i : Nat},
    findServing cid sv = some i → sv[i]? = some (some cid) := by
  intro sv
  induction sv with
  | nil => intro i h; simp [findServing] at h
  | cons a t ih =>
    intro i h
    cases a with
    | none =>
      rw [findServing] at h
      cases hfi : findServing cid t with
      | none => rw [hfi] at h; simp at h
      | some i0 =>
        rw [hfi] at h
        simp at h
        subst h
        simpa using ih hfi
    | some c =>
      rw [findServing] at h
      by_cases hc : c = cid
      · rw [if_pos hc] at h
        injection h with h
        subst h
        simp [hc]
      · rw [if_neg hc] at h
        cases hfi : findServing cid t with
        | none => rw [hfi] at h; simp at h
        | some i0 =>
          rw [hfi] at h
          simp at h
          subst h
          simpa using ih hfi

theorem countBusy_le : ∀ (sv : List (Option Nat)), countBusy sv ≤ sv.length := by
  intro sv
  induction sv with
  | nil => simp [countBusy]
  | cons a t ih =>
    cases a <;> rw [countBusy] <;> simp <;> omega

/-- Appending the metric samples preserves the invariant: the new
instantaneous and cumulative utilization entries lie in `[0, 1]`. -/
theorem record_preserve {n : Nat} {s2 : SimState} (h : Inv n s2) :
    Inv n (record s2) ∧ W (record s2) = W s2 := by
  have hns : (0 : ℚ) < (s2.num_servers : ℚ) := by exact_mod_cast h.ns_pos
  have hiu : 0 ≤ (countBusy s2.servers : ℚ) / (s2.num_servers : ℚ) ∧
      (countBusy s2.servers : ℚ) / (s2.num_servers : ℚ) ≤ 1 := by
    constructor
    · exact div_nonneg (by positivity) (le_of_lt hns)
    · rw [div_le_one hns]
      exact_mod_cast (countBusy_le s2.servers).trans (le_of_eq h.servers_len)
  have hmax1 : (1 : ℚ) ≤ max s2.current_time 1 := le_max_right _ _
  have htp : (0 : ℚ) < (s2.num_servers : ℚ) * max s2.current_time 1 :=
    mul_pos hns (lt_of_lt_of_le one_pos hmax1)
  have hsum0 : 0 ≤ s2.metrics.server_busy_time.sum := List.sum_nonneg h.busy_nonneg
  have hsumle : s2.metrics.server_busy_time.sum ≤
      (s2.num_servers : ℚ) * max s2.current_time 1 := by
    have h1 := List.sum_le_card_nsmul s2.metrics.server_busy_time
      (max s2.current_time 1) (fun x hx => (h.busy_le x hx).trans (le_max_left _ _))
    rw [nsmul_eq_mul, h.busy_len] at h1
    exact h1
  have hcu : 0 ≤ (if 0 < (s2.num_servers : ℚ) * max s2.current_time 1 then
        s2.metrics.server_busy_time.sum / ((s2.num_servers : ℚ) * max s2.current_time 1)
      else 0) ∧
      (if 0 < (s2.num_servers : ℚ) * max s2.current_time 1 then
        s2.metrics.server_busy_time.sum / ((s2.num_servers : ℚ) * max s2.current_time 1)
      else 0) ≤ 1 := by
    rw [if_pos htp]
    exact ⟨div_nonneg hsum0 (le_of_lt htp), (div_le_one htp).mpr hsumle⟩
  refine ⟨⟨h.ns_pos, h.st_nonneg, h.servers_len, h.busy_len, h.heap, h.time_nonneg,
    h.ev_time, h.conserve, h.wait_busy, h.ev_unique, h.arr_fresh, h.start_ok, h.end_ok,
    h.slot_unique, h.slot_event, h.slot_wait, h.wait_noev, h.wait_nodup,
    h.busy_nonneg, h.busy_le, ?_, ?_⟩, rfl⟩
  · intro u hu
    rcases List.mem_append.mp hu with h1 | h1
    · exact h.util_hist u h1
    · rw [List.mem_singleton.mp h1]
      exact hiu
  · intro u hu
    rcases List.mem_append.mp hu with h1 | h1
    · exact h.cum_hist u h1
    · rw [List.mem_singleton.mp h1]
      exact hcu

theorem pop_counts {s : SimState} {t : ℚ} {ev : Event} {fe : List (ℚ × Event)}
    (hrm : removeMin s.future_events = some ((t, ev), fe)) (ty : EType) :
    countEv s.future_events ty = countEv fe ty +
      (if ev.event_type = ty then 1 else 0) := by
  have hc := removeMin_countP hrm (fun e => e.2.event_type = ty)
  unfold countEv
  rw [hc]
  by_cases hty : ev.event_type = ty <;> simp [hty]

theorem pop_cid_fresh {n : Nat} {s : SimState} (h : Inv n s) {t : ℚ} {ev : Event}
    {fe : List (ℚ × Event)} (hrm : removeMin s.future_events = some ((t, ev), fe)) :
    ∀ e ∈ fe, e.2.customer_id ≠ ev.customer_id := by
  have hc := removeMin_countP hrm (fun e => e.2.customer_id = ev.customer_id)
  have hu := h.ev_unique ev.customer_id
  unfold countCid at hu
  rw [hc] at hu
  rw [if_pos (by simp)] at hu
  intro e he heq
  have hpos : 0 < fe.countP (fun e2 => e2.2.customer_id = ev.customer_id) :=
    List.countP_pos.mpr ⟨e, he, by simp [heq]⟩
  omega

theorem pop_cid_le {n : Nat} {s : SimState} (h : Inv n s) {t : ℚ} {ev : Event}
    {fe : List (ℚ × Event)} (hrm : removeMin s.future_events = some ((t, ev), fe)) :
    ∀ cid, countCid fe cid ≤ 1 := by
  intro cid
  have hc := removeMin_countP hrm (fun e => e.2.customer_id = cid)
  have hu := h.ev_unique cid
  unfold countCid at hu ⊢
  rw [hc] at hu
  split at hu <;> omega

theorem mem_of_removeMin_ne {K V : Type} [LinearOrder K] {d : List (K × V)}
    {x e : K × V} {d2 : List (K × V)} (h : HeapPQ.removeMin d = some (x, d2))
    (he : e ∈ d) (hne : e ≠ x) : e ∈ d2 := by
  have hm : e ∈ x :: d2 := (removeMin_perm h).symm.mem_iff.mp he
  rcases List.mem_cons.mp hm with h1 | h1
  · exact absurd h1 hne
  · exact h1

theorem arrival_preserve {n : Nat} {s : SimState} (h : Inv n s) {t : ℚ} {ev : Event}
    {fe : List (ℚ × Event)} (hrm : removeMin s.future_events = some ((t, ev), fe))
    (hty : ev.event_type = EType.arrival) :
    Inv n (arrivalH { s with future_events := fe, current_time := t } ev) ∧
    W (arrivalH { s with future_events := fe, current_time := t } ev) + 1 = W s := by
  have hx : (t, ev) ∈ s.future_events := removeMin_mem hrm
  have hsub : ∀ e ∈ fe, e ∈ s.future_events := removeMin_subset hrm
  have hheap : MinHeap fe := removeMin_MinHeap h.heap hrm
  have hmin : ∀ e ∈ fe, t ≤ e.1 := fun e he => removeMin_min h.heap hrm e (hsub e he)
  have hts : s.current_time ≤ t := h.ev_time (t, ev) hx
  have ht0 : 0 ≤ t := le_trans h.time_nonneg hts
  have hfresh := pop_cid_fresh h hrm
  have hcle := pop_cid_le h hrm
  have hcounts := pop_counts hrm
  obtain ⟨hnotslot, hnotwait⟩ := h.arr_fresh (t, ev) hx hty
  have hA : countEv s.future_events EType.arrival = countEv fe EType.arrival + 1 := by
    rw [hcounts EType.arrival, if_pos hty]
  have hS : countEv s.future_events EType.service_start =
      countEv fe EType.service_start := by
    simp [hcounts EType.service_start, hty]
  have hE : countEv s.future_events EType.service_end =
      countEv fe EType.service_end := by
    simp [hcounts EType.service_end, hty]
  have hcid0 : fe.countP (fun e => e.2.customer_id = ev.customer_id) = 0 :=
    List.countP_eq_zero.mpr (fun e he => by simp [hfresh e he])
  have hcons := h.conserve
  simp only [arrivalH]
  cases hfi : firstIdle s.servers with
  | some i =>
    dsimp only
    have hidle : s.servers[i]? = some none := firstIdle_some hfi
    have hilen : i < s.servers.length := lt_length_of_getElem? hidle
    have hwnil : s.waiting_line = [] := by
      by_contra hne
      exact (h.wait_busy hne none (List.mem_iff_getElem?.mpr ⟨i, hidle⟩)) rfl
    have haddc : ∀ ty, countEv (add fe t ⟨t, EType.service_start, ev.customer_id⟩) ty =
        countEv fe ty + (if EType.service_start = ty then 1 else 0) := by
      intro ty
      have := add_countP fe t ⟨t, EType.service_start, ev.customer_id⟩
        (fun e => e.2.event_type = ty)
      unfold countEv
      rw [this]
      by_cases hc : EType.service_start = ty <;> simp [hc]
    have hA2 : countEv (add fe t ⟨t, EType.service_start, ev.customer_id⟩) EType.arrival =
        countEv fe EType.arrival := by simp [haddc EType.arrival]
    have hS2 : countEv (add fe t ⟨t, EType.service_start, ev.customer_id⟩)
        EType.service_start = countEv fe EType.service_start + 1 := by
      simp [haddc EType.service_start]
    have hE2 : countEv (add fe t ⟨t, EType.service_start, ev.customer_id⟩)
        EType.service_end = countEv fe EType.service_end := by
      simp [haddc EType.service_end]
    refine ⟨⟨h.ns_pos, h.st_nonneg, ?_, h.busy_len, ?_, ht0, ?_, ?_, ?_, ?_, ?_, ?_, ?_,
      ?_, ?_, ?_, ?_, ?_, h.busy_nonneg, ?_, h.util_hist, h.cum_hist⟩, ?_⟩
    · simpa using h.servers_len
    · exact add_MinHeap hheap t ⟨t, EType.service_start, ev.customer_id⟩
    · intro e he
      rcases mem_add.mp he with h1 | h1
      · exact hmin e h1
      · rw [h1]
    · -- conserve
      dsimp only
      omega
    · -- wait_busy
      intro hcon
      exact absurd hwnil hcon
    · -- ev_unique
      intro c
      have hadd := add_countP fe t ⟨t, EType.service_start, ev.customer_id⟩
        (fun e => e.2.customer_id = c)
      unfold countCid
      rw [hadd]
      by_cases hc : ev.customer_id = c
      · subst hc
        rw [if_pos (by simp)]
        rw [hcid0]
      · rw [if_neg (by simp [hc])]
        have := hcle c
        unfold countCid at this
        omega
    · -- arr_fresh
      intro e he hety
      rcases mem_add.mp he with h1 | h1
      · obtain ⟨hns1, hnw1⟩ := h.arr_fresh e (hsub e h1) hety
        constructor
        · intro hcon
          obtain ⟨j, hj⟩ := List.mem_iff_getElem?.mp hcon
          by_cases hji : j = i
          · subst hji
            rw [List.getElem?_set_self (by simpa using hilen)] at hj
            injection hj with hj
            injection hj with hj
            exact hfresh e h1 hj.symm
          · rw [List.getElem?_set_ne (fun hc => hji hc.symm)] at hj
            exact hns1 (List.mem_iff_getElem?.mpr ⟨j, hj⟩)
        · rw [hwnil]
          simp
      · rw [h1] at hety
        cases hety
    · -- start_ok
      intro e he hety
      rcases mem_add.mp he with h1 | h1
      · obtain ⟨hsl, r0, hr0⟩ := h.start_ok e (hsub e h1) hety
        constructor
        · obtain ⟨j, hj⟩ := List.mem_iff_getElem?.mp hsl
          have hji : j ≠ i := by
            intro hc
            subst hc
            rw [hidle] at hj
            injection hj with hj
            cases hj
          exact List.mem_iff_getElem?.mpr
            ⟨j, by rw [List.getElem?_set_ne (fun hc => hji hc.symm)]; exact hj⟩
        · exact ⟨r0, by rw [lookupC_setC_ne _ _ (hfresh e h1)]; exact hr0⟩
      · rw [h1]
        constructor
        · exact List.mem_iff_getElem?.mpr
            ⟨i, by rw [List.getElem?_set_self (by simpa using hilen)]⟩
        · exact ⟨_, lookupC_setC_self s.customers ev.customer_id _⟩
    · -- end_ok
      intro e he hety
      rcases mem_add.mp he with h1 | h1
      · obtain ⟨hsl, r0, st0, hr0, hst0, hstle, hbusy⟩ := h.end_ok e (hsub e h1) hety
        refine ⟨?_, r0, st0, ?_, hst0, le_trans hstle hts, ?_⟩
        · obtain ⟨j, hj⟩ := List.mem_iff_getElem?.mp hsl
          have hji : j ≠ i := by
            intro hc
            subst hc
            rw [hidle] at hj
            injection hj with hj
            cases hj
          exact List.mem_iff_getElem?.mpr
            ⟨j, by rw [List.getElem?_set_ne (fun hc => hji hc.symm)]; exact hj⟩
        · rw [lookupC_setC_ne _ _ (hfresh e h1)]
          exact hr0
        · intro i' b hsv hb
          by_cases hii : i' = i
          · subst hii
            rw [List.getElem?_set_self (by simpa using hilen)] at hsv
            injection hsv with hsv
            injection hsv with hsv
            exact absurd hsv.symm (hfresh e h1)
          · rw [List.getElem?_set_ne (fun hc => hii hc.symm)] at hsv
            exact hbusy i' b hsv hb
      · rw [h1] at hety
        cases hety
    · -- slot_unique
      intro i' j' c hi' hj'
      by_cases hii : i' = i <;> by_cases hjj : j' = i
      · omega
      · subst hii
        rw [List.getElem?_set_self (by simpa using hilen)] at hi'
        injection hi' with hi'
        injection hi' with hi'
        rw [List.getElem?_set_ne (fun hc => hjj hc.symm)] at hj'
        rw [← hi'] at hj'
        exact absurd (List.mem_iff_getElem?.mpr ⟨j', hj'⟩) hnotslot
      · subst hjj
        rw [List.getElem?_set_self (by simpa using hilen)] at hj'
        injection hj' with hj'
        injection hj' with hj'
        rw [List.getElem?_set_ne (fun hc => hii hc.symm)] at hi'
        rw [← hj'] at hi'
        exact absurd (List.mem_iff_getElem?.mpr ⟨i', hi'⟩) hnotslot
      · rw [List.getElem?_set_ne (fun hc => hii hc.symm)] at hi'
        rw [List.getElem?_set_ne (fun hc => hjj hc.symm)] at hj'
        exact h.slot_unique i' j' c hi' hj'
    · -- slot_event
      intro i' c hi'
      by_cases hii : i' = i
      · subst hii
        rw [List.getElem?_set_self (by simpa using hilen)] at hi'
        injection hi' with hi'
        injection hi' with hi'
        exact ⟨(t, ⟨t, EType.service_start, ev.customer_id⟩),
          mem_add.mpr (Or.inr rfl), by rw [← hi'], Or.inl rfl⟩
      · rw [List.getElem?_set_ne (fun hc => hii hc.symm)] at hi'
        obtain ⟨e0, he0, hcid0', hty0⟩ := h.slot_event i' c hi'
        have hne : e0 ≠ (t, ev) := by
          intro hcon
          rw [hcon] at hty0
          rcases hty0 with hh | hh <;> rw [hty] at hh <;> cases hh
        exact ⟨e0, mem_add.mpr (Or.inl (mem_of_removeMin_ne hrm he0 hne)), hcid0', hty0⟩
    · -- slot_wait
      intro c _
      rw [hwnil]
      simp
    · -- wait_noev
      intro c hc
      rw [hwnil] at hc
      cases hc
    · -- wait_nodup
      rw [hwnil]
      exact List.nodup_nil
    · -- busy_le
      intro b hb
      exact le_trans (h.busy_le b hb) hts
    · -- W
      unfold W
      dsimp only
      omega
  | none =>
    dsimp only
    have hallbusy := firstIdle_none hfi
    refine ⟨⟨h.ns_pos, h.st_nonneg, h.servers_len, h.busy_len, hheap, ht0, hmin, ?_, ?_,
      ?_, ?_, ?_, ?_, h.slot_unique, ?_, ?_, ?_, ?_, h.busy_nonneg, ?_, h.util_hist,
      h.cum_hist⟩, ?_⟩
    · -- conserve
      dsimp only
      simp only [List.length_append, List.length_cons, List.length_nil]
      omega
    · -- wait_busy
      intro _
      exact hallbusy
    · -- ev_unique
      exact hcle
    · -- arr_fresh
      intro e he hety
      obtain ⟨hns1, hnw1⟩ := h.arr_fresh e (hsub e he) hety
      refine ⟨hns1, ?_⟩
      intro hcon
      rcases List.mem_append.mp hcon with h1 | h1
      · exact hnw1 h1
      · exact hfresh e he (List.mem_singleton.mp h1)
    · -- start_ok
      intro e he hety
      obtain ⟨hsl, r0, hr0⟩ := h.start_ok e (hsub e he) hety
      exact ⟨hsl, r0, by rw [lookupC_setC_ne _ _ (hfresh e he)]; exact hr0⟩
    · -- end_ok
      intro e he hety
      obtain ⟨hsl, r0, st0, hr0, hst0, hstle, hbusy⟩ := h.end_ok e (hsub e he) hety
      exact ⟨hsl, r0, st0, by rw [lookupC_setC_ne _ _ (hfresh e he)]; exact hr0,
        hst0, le_trans hstle hts, hbusy⟩
    · -- slot_event
      intro i' c hi'
      obtain ⟨e0, he0, hcid0', hty0⟩ := h.slot_event i' c hi'
      have hne : e0 ≠ (t, ev) := by
        intro hcon
        rw [hcon] at hty0
        rcases hty0 with hh | hh <;> rw [hty] at hh <;> cases hh
      exact ⟨e0, mem_of_removeMin_ne hrm he0 hne, hcid0', hty0⟩
    · -- slot_wait
      intro c hc
      intro hcon
      rcases List.mem_append.mp hcon with h1 | h1
      · exact h.slot_wait c hc h1
      · rw [List.mem_singleton.mp h1] at hc
        exact hnotslot hc
    · -- wait_noev
      intro c hc
      rcases List.mem_append.mp hc with h1 | h1
      · obtain ⟨hnoev, r0, hr0⟩ := h.wait_noev c h1
        have hcne : c ≠ ev.customer_id := by
          intro hcon
          rw [hcon] at h1
          exact hnotwait h1
        exact ⟨fun e he => hnoev e (hsub e he),
          r0, by rw [lookupC_setC_ne _ _ hcne]; exact hr0⟩
      · rw [List.mem_singleton.mp h1]
        exact ⟨fun e he => hfresh e he,
          _, lookupC_setC_self s.customers ev.customer_id _⟩
    · -- wait_nodup
      rw [List.nodup_append]
      exact ⟨h.wait_nodup, List.nodup_singleton _,
        fun a ha hb => hnotwait (by rw [List.mem_singleton.mp hb] at ha; exact ha)⟩
    · -- busy_le
      intro b hb
      exact le_trans (h.busy_le b hb) hts
    · -- W
      unfold W
      dsimp only
      simp only [List.length_append, List.length_cons, List.length_nil]
      omega

theorem start_preserve {n : Nat} {s : SimState} (h : Inv n s) {t : ℚ} {ev : Event}
    {fe : List (ℚ × Event)} (hrm : removeMin s.future_events = some ((t, ev), fe))
    (hty : ev.event_type = EType.service_start) :
    ∃ s2, serviceStartH { s with future_events := fe, current_time := t } ev =
      Except.ok s2 ∧ Inv n s2 ∧ W s2 + 1 = W s := by
  have hx : (t, ev) ∈ s.future_events := removeMin_mem hrm
  have hsub : ∀ e ∈ fe, e ∈ s.future_events := removeMin_subset hrm
  have hheap : MinHeap fe := removeMin_MinHeap h.heap hrm
  have hmin : ∀ e ∈ fe, t ≤ e.1 := fun e he => removeMin_min h.heap hrm e (hsub e he)
  have hts : s.current_time ≤ t := h.ev_time (t, ev) hx
  have ht0 : 0 ≤ t := le_trans h.time_nonneg hts
  have hfresh := pop_cid_fresh h hrm
  have hcle := pop_cid_le h hrm
  have hcounts := pop_counts hrm
  obtain ⟨hsl, r0, hr0⟩ := h.start_ok (t, ev) hx hty
  have hA : countEv s.future_events EType.arrival = countEv fe EType.arrival := by
    simp [hcounts EType.arrival, hty]
  have hS : countEv s.future_events EType.service_start =
      countEv fe EType.service_start + 1 := by
    rw [hcounts EType.service_start, if_pos hty]
  have hE : countEv s.future_events EType.service_end =
      countEv fe EType.service_end := by
    simp [hcounts EType.service_end, hty]
  have hcid0 : fe.countP (fun e => e.2.customer_id = ev.customer_id) = 0 :=
    List.countP_eq_zero.mpr (fun e he => by simp [hfresh e he])
  have hcons := h.conserve
  have haddc : ∀ ty, countEv (add fe (t + s.service_time)
      ⟨t + s.service_time, EType.service_end, ev.customer_id⟩) ty =
      countEv fe ty + (if EType.service_end = ty then 1 else 0) := by
    intro ty
    have := add_countP fe (t + s.service_time)
      ⟨t + s.service_time, EType.service_end, ev.customer_id⟩
      (fun e => e.2.event_type = ty)
    unfold countEv
    rw [this]
    by_cases hc : EType.service_end = ty <;> simp [hc]
  have htst : t ≤ t + s.service_time := by
    have := h.st_nonneg
    linarith
  refine ⟨{ s with
      future_events := add fe (t + s.service_time)
        ⟨t + s.service_time, EType.service_end, ev.customer_id⟩,
      current_time := t,
      customers := setC s.customers ev.customer_id { r0 with service_start := some t },
      metrics := { s.metrics with
        total_wait_time := s.metrics.total_wait_time + (t - r0.arrival) } }, ?_, ?_, ?_⟩
  · -- the handler takes the ok branch
    simp only [serviceStartH]
    rw [show lookupC ({ s with future_events := fe, current_time := t } : SimState).customers
      ev.customer_id = some r0 from hr0]
  · refine ⟨h.ns_pos, h.st_nonneg, h.servers_len, h.busy_len, ?_, ht0, ?_, ?_,
      h.wait_busy, ?_, ?_, ?_, ?_, h.slot_unique, ?_, h.slot_wait, ?_, h.wait_nodup,
      h.busy_nonneg, ?_, h.util_hist, h.cum_hist⟩
    · exact add_MinHeap hheap _ _
    · intro e he
      rcases mem_add.mp he with h1 | h1
      · exact hmin e h1
      · rw [h1]
        exact htst
    · -- conserve
      dsimp only
      have hA2 := haddc EType.arrival
      have hS2 := haddc EType.service_start
      have hE2 := haddc EType.service_end
      simp only [reduceCtorEq, if_false, if_true, reduceIte] at hA2 hS2 hE2
      omega
    · -- ev_unique
      intro c
      have hadd := add_countP fe (t + s.service_time)
        ⟨t + s.service_time, EType.service_end, ev.customer_id⟩
        (fun e => e.2.customer_id = c)
      unfold countCid
      rw [hadd]
      by_cases hc : ev.customer_id = c
      · subst hc
        rw [if_pos (by simp)]
        rw [hcid0]
      · rw [if_neg (by simp [hc])]
        have := hcle c
        unfold countCid at this
        omega
    · -- arr_fresh
      intro e he hety
      rcases mem_add.mp he with h1 | h1
      · exact h.arr_fresh e (hsub e h1) hety
      · rw [h1] at hety
        cases hety
    · -- start_ok
      intro e he hety
      rcases mem_add.mp he with h1 | h1
      · obtain ⟨hsl1, r1, hr1⟩ := h.start_ok e (hsub e h1) hety
        exact ⟨hsl1, r1, by rw [lookupC_setC_ne _ _ (hfresh e h1)]; exact hr1⟩
      · rw [h1] at hety
        cases hety
    · -- end_ok
      intro e he hety
      rcases mem_add.mp he with h1 | h1
      · obtain ⟨hsl1, r1, st1, hr1, hss1, hle1, hbusy1⟩ := h.end_ok e (hsub e h1) hety
        exact ⟨hsl1, r1, st1, by rw [lookupC_setC_ne _ _ (hfresh e h1)]; exact hr1,
          hss1, le_trans hle1 hts, hbusy1⟩
      · rw [h1]
        refine ⟨hsl, { r0 with service_start := some t }, t,
          lookupC_setC_self s.customers ev.customer_id _, rfl, le_refl t, ?_⟩
        intro i b hsv hb
        exact le_trans (h.busy_le b (List.mem_iff_getElem?.mpr ⟨i, hb⟩)) hts
    · -- slot_event
      intro i' c hi'
      obtain ⟨e0, he0, hcid0', hty0⟩ := h.slot_event i' c hi'
      by_cases he0x : e0 = (t, ev)
      · refine ⟨(t + s.service_time,
          ⟨t + s.service_time, EType.service_end, ev.customer_id⟩),
          mem_add.mpr (Or.inr rfl), ?_, Or.inr rfl⟩
        rw [he0x] at hcid0'
        exact hcid0'
      · exact ⟨e0, mem_add.mpr (Or.inl (mem_of_removeMin_ne hrm he0 he0x)),
          hcid0', hty0⟩
    · -- wait_noev
      intro c hc
      obtain ⟨hnoev, r1, hr1⟩ := h.wait_noev c hc
      have hcne : c ≠ ev.customer_id := by
        intro hcon
        rw [hcon] at hc
        exact h.slot_wait ev.customer_id hsl hc
      refine ⟨?_, r1, by rw [lookupC_setC_ne _ _ hcne]; exact hr1⟩
      intro e he
      rcases mem_add.mp he with h1 | h1
      · exact hnoev e (hsub e h1)
      · rw [h1]
        intro hcon
        exact hcne hcon.symm
    · -- busy_le
      intro b hb
      exact le_trans (h.busy_le b hb) hts
  · -- W
    unfold W
    dsimp only
    have hA2 := haddc EType.arrival
    have hS2 := haddc EType.service_start
    have hE2 := haddc EType.service_end
    simp only [reduceCtorEq, if_false, if_true, reduceIte] at hA2 hS2 hE2
    omega

theorem end_preserve {n : Nat} {s : SimState} (h : Inv n s) {t : ℚ} {ev : Event}
    {fe : List (ℚ × Event)} (hrm : removeMin s.future_events = some ((t, ev), fe))
    (hty : ev.event_type = EType.service_end) :
    ∃ s2, serviceEndH { s with future_events := fe, current_time := t } ev =
      Except.ok s2 ∧ Inv n s2 ∧ W s2 + 1 = W s := by
  have hx : (t, ev) ∈ s.future_events := removeMin_mem hrm
  have hsub : ∀ e ∈ fe, e ∈ s.future_events := removeMin_subset hrm
  have hheap : MinHeap fe := removeMin_MinHeap h.heap hrm
  have hmin : ∀ e ∈ fe, t ≤ e.1 := fun e he => removeMin_min h.heap hrm e (hsub e he)
  have hts : s.current_time ≤ t := h.ev_time (t, ev) hx
  have ht0 : 0 ≤ t := le_trans h.time_nonneg hts
  have hfresh := pop_cid_fresh h hrm
  have hcle := pop_cid_le h hrm
  have hcounts := pop_counts hrm
  obtain ⟨hsl, r0, st0, hr0, hss0, hstle, hbusy0⟩ := h.end_ok (t, ev) hx hty
  have hA : countEv s.future_events EType.arrival = countEv fe EType.arrival := by
    simp [hcounts EType.arrival, hty]
  have hS : countEv s.future_events EType.service_start =
      countEv fe EType.service_start := by
    simp [hcounts EType.service_start, hty]
  have hE : countEv s.future_events EType.service_end =
      countEv fe EType.service_end + 1 := by
    rw [hcounts EType.service_end, if_pos hty]
  have hcons := h.conserve
  -- the serving slot
  obtain ⟨i, hfs⟩ : ∃ i, findServing ev.customer_id s.servers = some i := by
    cases hfsc : findServing ev.customer_id s.servers with
    | none => exact absurd hsl (findServing_none hfsc)
    | some i => exact ⟨i, rfl⟩
  have hocc : s.servers[i]? = some (some ev.customer_id) := findServing_some hfs
  have hilen : i < s.servers.length := lt_length_of_getElem? hocc
  have hblen : i < s.metrics.server_busy_time.length := by
    rw [h.busy_len]
    rw [h.servers_len] at hilen
    exact hilen
  have hb0 : s.metrics.server_busy_time[i]? = some s.metrics.server_busy_time[i] :=
    List.getElem?_eq_getElem hblen
  have hbval : s.metrics.server_busy_time[i] ≤ st0 :=
    hbusy0 i _ hocc hb0
  have hb0pos : 0 ≤ s.metrics.server_busy_time[i] :=
    h.busy_nonneg _ (List.mem_iff_getElem?.mpr ⟨i, hb0⟩)
  have hstt : st0 ≤ t := le_trans hstle hts
  -- shared facts about the updated busy list
  have hbusy_nonneg2 : ∀ b ∈ s.metrics.server_busy_time.set i
      (s.metrics.server_busy_time[i] + (t - st0)), 0 ≤ b := by
    intro b hb
    obtain ⟨j, hj⟩ := List.mem_iff_getElem?.mp hb
    by_cases hji : j = i
    · subst hji
      rw [List.getElem?_set_self (by simpa using hblen)] at hj
      injection hj with hj
      rw [← hj]
      have : 0 ≤ t - st0 := by linarith
      linarith
    · rw [List.getElem?_set_ne (fun hc => hji hc.symm)] at hj
      exact h.busy_nonneg b (List.mem_iff_getElem?.mpr ⟨j, hj⟩)
  have hbusy_le2 : ∀ b ∈ s.metrics.server_busy_time.set i
      (s.metrics.server_busy_time[i] + (t - st0)), b ≤ t := by
    intro b hb
    obtain ⟨j, hj⟩ := List.mem_iff_getElem?.mp hb
    by_cases hji : j = i
    · subst hji
      rw [List.getElem?_set_self (by simpa using hblen)] at hj
      injection hj with hj
      rw [← hj]
      linarith
    · rw [List.getElem?_set_ne (fun hc => hji hc.symm)] at hj
      exact le_trans (h.busy_le b (List.mem_iff_getElem?.mpr ⟨j, hj⟩)) hts
  cases hwl : s.waiting_line with
  | nil =>
    refine ⟨{ s with
        future_events := fe,
        current_time := t,
        servers := s.servers.set i none,
        metrics := { s.metrics with
          num_served := s.metrics.num_served + 1,
          simulation_end := t,
          server_busy_time := s.metrics.server_busy_time.set i
            (s.metrics.server_busy_time[i] + (t - st0)) } }, ?_, ?_, ?_⟩
    · -- handler evaluation
      simp only [serviceEndH]
      rw [show findServing ev.customer_id
        ({ s with future_events := fe, current_time := t } : SimState).servers = some i
        from hfs]
      rw [show lookupC ({ s with future_events := fe, current_time := t } : SimState).customers
        ev.customer_id = some r0 from hr0]
      dsimp only
      rw [show r0.service_start = some st0 from hss0]
      rw [show s.metrics.server_busy_time[i]? = some s.metrics.server_busy_time[i] from hb0]
      rw [show s.waiting_line = ([] : List Nat) from hwl]
    · refine ⟨h.ns_pos, h.st_nonneg, ?_, ?_, hheap, ht0, hmin, ?_, ?_,
        hcle, ?_, ?_, ?_, ?_, ?_, ?_, ?_, ?_, hbusy_nonneg2, hbusy_le2,
        h.util_hist, h.cum_hist⟩
      · simpa using h.servers_len
      · simpa using h.busy_len
      · -- conserve
        dsimp only
        omega
      · -- wait_busy
        intro hcon
        rw [hwl] at hcon
        exact absurd rfl hcon
      · -- arr_fresh
        intro e he hety
        obtain ⟨hns1, hnw1⟩ := h.arr_fresh e (hsub e he) hety
        refine ⟨?_, ?_⟩
        · intro hcon
          obtain ⟨j, hj⟩ := List.mem_iff_getElem?.mp hcon
          by_cases hji : j = i
          · subst hji
            rw [List.getElem?_set_self (by simpa using hilen)] at hj
            injection hj with hj
            cases hj
          · rw [List.getElem?_set_ne (fun hc => hji hc.symm)] at hj
            exact hns1 (List.mem_iff_getElem?.mpr ⟨j, hj⟩)
        · exact hnw1
      · -- start_ok
        intro e he hety
        obtain ⟨hsl1, r1, hr1⟩ := h.start_ok e (hsub e he) hety
        refine ⟨?_, r1, hr1⟩
        obtain ⟨j, hj⟩ := List.mem_iff_getElem?.mp hsl1
        have hji : j ≠ i := by
          intro hc
          subst hc
          rw [hocc] at hj
          injection hj with hj
          injection hj with hj
          exact hfresh e he hj.symm
        exact List.mem_iff_getElem?.mpr
          ⟨j, by rw [List.getElem?_set_ne (fun hc => hji hc.symm)]; exact hj⟩
      · -- end_ok
        intro e he hety
        obtain ⟨hsl1, r1, st1, hr1, hss1, hle1, hbusy1⟩ := h.end_ok e (hsub e he) hety
        obtain ⟨j, hj⟩ := List.mem_iff_getElem?.mp hsl1
        have hji : j ≠ i := by
          intro hc
          subst hc
          rw [hocc] at hj
          injection hj with hj
          injection hj with hj
          exact hfresh e he hj.symm
        refine ⟨List.mem_iff_getElem?.mpr
          ⟨j, by rw [List.getElem?_set_ne (fun hc => hji hc.symm)]; exact hj⟩,
          r1, st1, hr1, hss1, le_trans hle1 hts, ?_⟩
        intro i' b hsv hb
        have hii : i' ≠ i := by
          intro hc
          subst hc
          rw [List.getElem?_set_self (by simpa using hilen)] at hsv
          injection hsv with hsv
          cases hsv
        rw [List.getElem?_set_ne (fun hc => hii hc.symm)] at hsv
        rw [List.getElem?_set_ne (fun hc => hii hc.symm)] at hb
        exact hbusy1 i' b hsv hb
      · -- slot_unique
        intro i' j' c hi' hj'
        have hii : i' ≠ i := by
          intro hc
          subst hc
          rw [List.getElem?_set_self (by simpa using hilen)] at hi'
          injection hi' with hi'
          cases hi'
        have hjj : j' ≠ i := by
          intro hc
          subst hc
          rw [List.getElem?_set_self (by simpa using hilen)] at hj'
          injection hj' with hj'
          cases hj'
        rw [List.getElem?_set_ne (fun hc => hii hc.symm)] at hi'
        rw [List.getElem?_set_ne (fun hc => hjj hc.symm)] at hj'
        exact h.slot_unique i' j' c hi' hj'
      · -- slot_event
        intro i' c hi'
        have hii : i' ≠ i := by
          intro hc
          subst hc
          rw [List.getElem?_set_self (by simpa using hilen)] at hi'
          injection hi' with hi'
          cases hi'
        rw [List.getElem?_set_ne (fun hc => hii hc.symm)] at hi'
        obtain ⟨e0, he0, hcid0', hty0⟩ := h.slot_event i' c hi'
        have hcne : c ≠ ev.customer_id := by
          intro hcon
          subst hcon
          exact hii (h.slot_unique i' i ev.customer_id hi' (by rw [hocc]))
        have hne : e0 ≠ (t, ev) := by
          intro hcon
          rw [hcon] at hcid0'
          exact hcne hcid0'.symm
        exact ⟨e0, mem_of_removeMin_ne hrm he0 hne, hcid0', hty0⟩
      · -- slot_wait
        intro c hc
        rw [hwl]
        simp
      · -- wait_noev
        intro c hc
        rw [hwl] at hc
        cases hc
      · -- wait_nodup
        rw [hwl]
        exact List.nodup_nil
    · -- W
      unfold W
      dsimp only
      rw [hwl] at hcons ⊢
      simp only [List.length_nil] at hcons ⊢
      omega
  | cons c rest =>
    have hcw : c ∈ s.waiting_line := by rw [hwl]; exact List.mem_cons_self c rest
    obtain ⟨hcnoev, rc, hrc⟩ := h.wait_noev c hcw
    have hcnrest : c ∉ rest := by
      have := h.wait_nodup
      rw [hwl] at this
      exact (List.nodup_cons.mp this).1
    have hcne : c ≠ ev.customer_id := by
      intro hcon
      rw [hcon] at hcw
      exact h.slot_wait ev.customer_id hsl hcw
    have hcnoslot : ¬ inSlot s.servers c := by
      intro hcon
      obtain ⟨j, hj⟩ := List.mem_iff_getElem?.mp hcon
      obtain ⟨e0, he0, hcid0', _⟩ := h.slot_event j c hj
      exact hcnoev e0 he0 hcid0'
    have hcfe0 : fe.countP (fun e => e.2.customer_id = c) = 0 :=
      List.countP_eq_zero.mpr (fun e he => by simp [hcnoev e (hsub e he)])
    have haddc : ∀ ty, countEv (add fe t ⟨t, EType.service_start, c⟩) ty =
        countEv fe ty + (if EType.service_start = ty then 1 else 0) := by
      intro ty
      have := add_countP fe t ⟨t, EType.service_start, c⟩ (fun e => e.2.event_type = ty)
      unfold countEv
      rw [this]
      by_cases hcc : EType.service_start = ty <;> simp [hcc]
    refine ⟨{ s with
        future_events := add fe t ⟨t, EType.service_start, c⟩,
        current_time := t,
        waiting_line := rest,
        servers := (s.servers.set i none).set i (some c),
        metrics := { s.metrics with
          num_served := s.metrics.num_served + 1,
          simulation_end := t,
          server_busy_time := s.metrics.server_busy_time.set i
            (s.metrics.server_busy_time[i] + (t - st0)) } }, ?_, ?_, ?_⟩
    · -- handler evaluation
      simp only [serviceEndH]
      rw [show findServing ev.customer_id
        ({ s with future_events := fe, current_time := t } : SimState).servers = some i
        from hfs]
      rw [show lookupC ({ s with future_events := fe, current_time := t } : SimState).customers
        ev.customer_id = some r0 from hr0]
      dsimp only
      rw [show r0.service_start = some st0 from hss0]
      rw [show s.metrics.server_busy_time[i]? = some s.metrics.server_busy_time[i] from hb0]
    · have hset : (s.servers.set i none).set i (some c) = s.servers.set i (some c) :=
        List.set_set none (some c) s.servers i
      rw [hset]
      refine ⟨h.ns_pos, h.st_nonneg, ?_, ?_, ?_, ht0, ?_, ?_, ?_,
        ?_, ?_, ?_, ?_, ?_, ?_, ?_, ?_, ?_, hbusy_nonneg2, hbusy_le2,
        h.util_hist, h.cum_hist⟩
      · simpa using h.servers_len
      · simpa using h.busy_len
      · exact add_MinHeap hheap _ _
      · intro e he
        rcases mem_add.mp he with h1 | h1
        · exact hmin e h1
        · rw [h1]
      · -- conserve
        dsimp only
        have hA2 := haddc EType.arrival
        have hS2 := haddc EType.service_start
        have hE2 := haddc EType.service_end
        simp only [reduceCtorEq, if_false, if_true, reduceIte] at hA2 hS2 hE2
        rw [hwl] at hcons
        simp only [List.length_cons] at hcons
        omega
      · -- wait_busy
        intro hcon sl hsl2
        obtain ⟨j, hj⟩ := List.mem_iff_getElem?.mp hsl2
        by_cases hji : j = i
        · subst hji
          rw [List.getElem?_set_self (by simpa using hilen)] at hj
          injection hj with hj
          rw [← hj]
          simp
        · rw [List.getElem?_set_ne (fun hc => hji hc.symm)] at hj
          exact h.wait_busy (by rw [hwl]; simp) sl (List.mem_iff_getElem?.mpr ⟨j, hj⟩)
      · -- ev_unique
        intro c'
        have hadd := add_countP fe t ⟨t, EType.service_start, c⟩
          (fun e => e.2.customer_id = c')
        unfold countCid
        rw [hadd]
        by_cases hcc : c = c'
        · subst hcc
          rw [if_pos (by simp)]
          rw [hcfe0]
        · rw [if_neg (by simp [hcc])]
          have := hcle c'
          unfold countCid at this
          omega
      · -- arr_fresh
        intro e he hety
        rcases mem_add.mp he with h1 | h1
        · obtain ⟨hns1, hnw1⟩ := h.arr_fresh e (hsub e h1) hety
          refine ⟨?_, ?_⟩
          · intro hcon
            obtain ⟨j, hj⟩ := List.mem_iff_getElem?.mp hcon
            by_cases hji : j = i
            · subst hji
              rw [List.getElem?_set_self (by simpa using hilen)] at hj
              injection hj with hj
              injection hj with hj
              exact hcnoev e (hsub e h1) hj.symm
            · rw [List.getElem?_set_ne (fun hc => hji hc.symm)] at hj
              exact hns1 (List.mem_iff_getElem?.mpr ⟨j, hj⟩)
          · intro hcon
            rw [hwl] at hnw1
            exact hnw1 (List.mem_cons_of_mem c hcon)
        · rw [h1] at hety
          cases hety
      · -- start_ok
        intro e he hety
        rcases mem_add.mp he with h1 | h1
        · obtain ⟨hsl1, r1, hr1⟩ := h.start_ok e (hsub e h1) hety
          refine ⟨?_, r1, hr1⟩
          obtain ⟨j, hj⟩ := List.mem_iff_getElem?.mp hsl1
          have hji : j ≠ i := by
            intro hc
            subst hc
            rw [hocc] at hj
            injection hj with hj
            injection hj with hj
            exact hfresh e h1 hj.symm
          exact List.mem_iff_getElem?.mpr
            ⟨j, by rw [List.getElem?_set_ne (fun hc => hji hc.symm)]; exact hj⟩
        · rw [h1]
          refine ⟨?_, rc, hrc⟩
          exact List.mem_iff_getElem?.mpr
            ⟨i, by rw [List.getElem?_set_self (by simpa using hilen)]⟩
      · -- end_ok
        intro e he hety
        rcases mem_add.mp he with h1 | h1
        · obtain ⟨hsl1, r1, st1, hr1, hss1, hle1, hbusy1⟩ := h.end_ok e (hsub e h1) hety
          obtain ⟨j, hj⟩ := List.mem_iff_getElem?.mp hsl1
          have hji : j ≠ i := by
            intro hc
            subst hc
            rw [hocc] at hj
            injection hj with hj
            injection hj with hj
            exact hfresh e h1 hj.symm
          refine ⟨List.mem_iff_getElem?.mpr
            ⟨j, by rw [List.getElem?_set_ne (fun hc => hji hc.symm)]; exact hj⟩,
            r1, st1, hr1, hss1, le_trans hle1 hts, ?_⟩
          intro i' b hsv hb
          have hii : i' ≠ i := by
            intro hc
            subst hc
            rw [List.getElem?_set_self (by simpa using hilen)] at hsv
            injection hsv with hsv
            injection hsv with hsv
            exact hcnoev e (hsub e h1) hsv.symm
          rw [List.getElem?_set_ne (fun hc => hii hc.symm)] at hsv
          rw [List.getElem?_set_ne (fun hc => hii hc.symm)] at hb
          exact hbusy1 i' b hsv hb
        · rw [h1] at hety
          cases hety
      · -- slot_unique
        intro i' j' c' hi' hj'
        by_cases hii : i' = i <;> by_cases hjj : j' = i
        · omega
        · subst hii
          rw [List.getElem?_set_self (by simpa using hilen)] at hi'
          injection hi' with hi'
          injection hi' with hi'
          rw [List.getElem?_set_ne (fun hc => hjj hc.symm)] at hj'
          rw [← hi'] at hj'
          exact absurd (List.mem_iff_getElem?.mpr ⟨j', hj'⟩) hcnoslot
        · subst hjj
          rw [List.getElem?_set_self (by simpa using hilen)] at hj'
          injection hj' with hj'
          injection hj' with hj'
          rw [List.getElem?_set_ne (fun hc => hii hc.symm)] at hi'
          rw [← hj'] at hi'
          exact absurd (List.mem_iff_getElem?.mpr ⟨i', hi'⟩) hcnoslot
        · rw [List.getElem?_set_ne (fun hc => hii hc.symm)] at hi'
          rw [List.getElem?_set_ne (fun hc => hjj hc.symm)] at hj'
          exact h.slot_unique i' j' c' hi' hj'
      · -- slot_event
        intro i' c' hi'
        by_cases hii : i' = i
        · subst hii
          rw [List.getElem?_set_self (by simpa using hilen)] at hi'
          injection hi' with hi'
          injection hi' with hi'
          exact ⟨(t, ⟨t, EType.service_start, c⟩), mem_add.mpr (Or.inr rfl),
            by rw [← hi'], Or.inl rfl⟩
        · rw [List.getElem?_set_ne (fun hc => hii hc.symm)] at hi'
          obtain ⟨e0, he0, hcid0', hty0⟩ := h.slot_event i' c' hi'
          have hcne2 : c' ≠ ev.customer_id := by
            intro hcon
            subst hcon
            exact hii (h.slot_unique i' i ev.customer_id hi' (by rw [hocc]))
          have hne : e0 ≠ (t, ev) := by
            intro hcon
            rw [hcon] at hcid0'
            exact hcne2 hcid0'.symm
          exact ⟨e0, mem_add.mpr (Or.inl (mem_of_removeMin_ne hrm he0 hne)),
            hcid0', hty0⟩
      · -- slot_wait
        intro c' hc'
        obtain ⟨j, hj⟩ := List.mem_iff_getElem?.mp hc'
        by_cases hji : j = i
        · subst hji
          rw [List.getElem?_set_self (by simpa using hilen)] at hj
          injection hj with hj
          injection hj with hj
          rw [← hj]
          exact hcnrest
        · rw [List.getElem?_set_ne (fun hc => hji hc.symm)] at hj
          have := h.slot_wait c' (List.mem_iff_getElem?.mpr ⟨j, hj⟩)
          rw [hwl] at this
          intro hcon
          exact this (List.mem_cons_of_mem c hcon)
      · -- wait_noev
        intro c' hc'
        have hc'w : c' ∈ s.waiting_line := by
          rw [hwl]
          exact List.mem_cons_of_mem c hc'
        obtain ⟨hnoev1, r1, hr1⟩ := h.wait_noev c' hc'w
        refine ⟨?_, r1, hr1⟩
        intro e he
        rcases mem_add.mp he with h1 | h1
        · exact hnoev1 e (hsub e h1)
        · rw [h1]
          intro hcon
          have hcc : c = c' := hcon
          rw [← hcc] at hc'
          exact hcnrest hc'
      · -- wait_nodup
        have := h.wait_nodup
        rw [hwl] at this
        exact (List.nodup_cons.mp this).2
    · -- W
      unfold W
      dsimp only
      have hS2 := haddc EType.service_start
      have hA2 := haddc EType.arrival
      have hE2 := haddc EType.service_end
      simp only [reduceCtorEq, if_false, if_true, reduceIte] at hA2 hS2 hE2
      rw [hwl]
      simp only [List.length_cons]
      omega

theorem step_terminal {s : SimState} (he : s.future_events = []) :
    step s = Except.ok (false, s) := by
  rw [step, if_pos (by rw [he]; rfl)]

theorem step_ok {n : Nat} {s : SimState} (h : Inv n s) (hne : s.future_events ≠ []) :
    ∃ s1, step s = Except.ok (true, s1) ∧ Inv n s1 ∧ W s1 + 1 = W s := by
  have hemp : ¬ is_empty s.future_events = true := by
    intro hb
    exact hne ((is_empty_iff _).mp hb)
  cases hrm : removeMin s.future_events with
  | none => exact absurd (removeMin_eq_none.mp hrm) hne
  | some p =>
    obtain ⟨⟨t, ev⟩, fe⟩ := p
    cases hty : ev.event_type with
    | arrival =>
      obtain ⟨hInv2, hW⟩ := arrival_preserve h hrm hty
      obtain ⟨hrec, hWrec⟩ := record_preserve hInv2
      refine ⟨_, ?_, hrec, by omega⟩
      rw [step, if_neg hemp, hrm]
      dsimp only
      rw [hty]
    | service_start =>
      obtain ⟨s2, hh, hInv2, hW⟩ := start_preserve h hrm hty
      obtain ⟨hrec, hWrec⟩ := record_preserve hInv2
      refine ⟨_, ?_, hrec, by omega⟩
      rw [step, if_neg hemp, hrm]
      dsimp only
      rw [hty, hh]
    | service_end =>
      obtain ⟨s2, hh, hInv2, hW⟩ := end_preserve h hrm hty
      obtain ⟨hrec, hWrec⟩ := record_preserve hInv2
      refine ⟨_, ?_, hrec, by omega⟩
      rw [step, if_neg hemp, hrm]
      dsimp only
      rw [hty, hh]

theorem countEv_partition : ∀ (fe : List (ℚ × Event)),
    fe.length = countEv fe EType.arrival + countEv fe EType.service_start +
      countEv fe EType.service_end := by
  intro fe
  induction fe with
  | nil => rfl
  | cons e t ih =>
    unfold countEv at *
    rw [List.length_cons, List.countP_cons, List.countP_cons, List.countP_cons]
    cases hty : e.2.event_type <;> simp [hty] <;> omega

theorem W_zero {s : SimState} (h : W s = 0) : s.future_events = [] := by
  unfold W at h
  have := countEv_partition s.future_events
  have hlen : s.future_events.length = 0 := by omega
  exact List.eq_nil_of_length_eq_zero hlen

theorem runFuel_terminal {n : Nat} : ∀ (k : Nat) (s : SimState), Inv n s → W s ≤ k →
    ∃ s1, runFuel k s = Except.ok s1 ∧ Inv n s1 ∧ s1.future_events = [] := by
  intro k
  induction k with
  | zero =>
    intro s h hW
    have hfe : s.future_events = [] := W_zero (by omega)
    exact ⟨s, rfl, h, hfe⟩
  | succ k ih =>
    intro s h hW
    by_cases hfe : s.future_events = []
    · refine ⟨s, ?_, h, hfe⟩
      rw [runFuel, step_terminal hfe]
      rfl
    · obtain ⟨s1, hstep, hInv1, hW1⟩ := step_ok h hfe
      obtain ⟨s2, hrun, hInv2, hfe2⟩ := ih s1 hInv1 (by omega)
      refine ⟨s2, ?_, hInv2, hfe2⟩
      rw [runFuel, hstep]
      exact hrun

theorem terminal_served {n : Nat} {s : SimState} (h : Inv n s)
    (hfe : s.future_events = []) :
    s.metrics.num_served = n ∧ s.waiting_line = [] := by
  have hc := h.conserve
  have hwl : s.waiting_line = [] := by
    by_contra hne
    have hbusy := h.wait_busy hne
    have hlen : 0 < s.servers.length := by
      rw [h.servers_len]
      exact h.ns_pos
    obtain ⟨sl, hsl⟩ : ∃ sl, s.servers[0]? = some sl :=
      ⟨_, List.getElem?_eq_getElem hlen⟩
    have hmem : sl ∈ s.servers := List.mem_iff_getElem?.mpr ⟨0, hsl⟩
    have hnn := hbusy sl hmem
    cases sl with
    | none => exact absurd rfl hnn
    | some c =>
      obtain ⟨e0, he0, _, _⟩ := h.slot_event 0 c (by rw [hsl])
      rw [hfe] at he0
      cases he0
  rw [hfe, hwl] at hc
  refine ⟨?_, hwl⟩
  simp only [countEv, List.countP_nil, List.length_nil] at hc
  omega

/-- The pure list of arrival events scheduled by `_schedule_initial_arrivals`
starting at time `t` with next customer id `i`. -/
def arrivalsList (t : ℚ) (i : Nat) : List ℚ → List (ℚ × Event)
  | [] => []
  | x :: rest => (t + x, ⟨t + x, EType.arrival, i⟩) :: arrivalsList (t + x) (i + 1) rest

theorem scheduleArrivals_perm : ∀ (l : List ℚ) (fe : List (ℚ × Event)) (t : ℚ) (i : Nat),
    List.Perm (scheduleArrivals fe t i l) (fe ++ arrivalsList t i l) := by
  intro l
  induction l with
  | nil => intro fe t i; simp [scheduleArrivals, arrivalsList]
  | cons x rest ih =>
    intro fe t i
    rw [scheduleArrivals, arrivalsList]
    have h1 := ih (add fe (t + x) ⟨t + x, EType.arrival, i⟩) (t + x) (i + 1)
    have h2 : List.Perm (add fe (t + x) ⟨t + x, EType.arrival, i⟩ ++
        arrivalsList (t + x) (i + 1) rest)
        ((fe ++ [(t + x, ⟨t + x, EType.arrival, i⟩)]) ++ arrivalsList (t + x) (i + 1) rest) :=
      (add_perm fe (t + x) ⟨t + x, EType.arrival, i⟩).append_right _
    refine (h1.trans (h2.trans ?_))
    rw [List.append_assoc, List.singleton_append]

theorem scheduleArrivals_MinHeap : ∀ (l : List ℚ) (fe : List (ℚ × Event)) (t : ℚ) (i : Nat),
    MinHeap fe → MinHeap (scheduleArrivals fe t i l) := by
  intro l
  induction l with
  | nil => intro fe t i h; exact h
  | cons x rest ih =>
    intro fe t i h
    rw [scheduleArrivals]
    exact ih _ _ _ (add_MinHeap h _ _)

theorem arrivalsList_type : ∀ (l : List ℚ) (t : ℚ) (i : Nat) (e : ℚ × Event),
    e ∈ arrivalsList t i l → e.2.event_type = EType.arrival := by
  intro l
  induction l with
  | nil => intro t i e he; cases he
  | cons x rest ih =>
    intro t i e he
    rcases List.mem_cons.mp he with h1 | h1
    · rw [h1]
    · exact ih _ _ e h1

theorem arrivalsList_cid : ∀ (l : List ℚ) (t : ℚ) (i : Nat) (e : ℚ × Event),
    e ∈ arrivalsList t i l →
    i ≤ e.2.customer_id ∧ e.2.customer_id < i + l.length := by
  intro l
  induction l with
  | nil => intro t i e he; cases he
  | cons x rest ih =>
    intro t i e he
    rcases List.mem_cons.mp he with h1 | h1
    · rw [h1]
      simp
    · have := ih _ _ e h1
      simp only [List.length_cons]
      omega

theorem arrivalsList_time : ∀ (l : List ℚ) (t : ℚ) (i : Nat) (e : ℚ × Event),
    (∀ x ∈ l, 0 ≤ x) → e ∈ arrivalsList t i l → t ≤ e.1 := by
  intro l
  induction l with
  | nil => intro t i e _ he; cases he
  | cons x rest ih =>
    intro t i e hpos he
    have hx : 0 ≤ x := hpos x (List.mem_cons_self x rest)
    rcases List.mem_cons.mp he with h1 | h1
    · rw [h1]
      simpa using hx
    · have := ih (t + x) (i + 1) e (fun y hy => hpos y (List.mem_cons_of_mem x hy)) h1
      linarith

theorem arrivalsList_countCid : ∀ (l : List ℚ) (t : ℚ) (i cid : Nat),
    countCid (arrivalsList t i l) cid ≤ 1 := by
  intro l
  induction l with
  | nil => intro t i cid; simp [arrivalsList, countCid]
  | cons x rest ih =>
    intro t i cid
    unfold countCid at *
    rw [arrivalsList, List.countP_cons]
    by_cases hc : i = cid
    · subst hc
      have h0 : (arrivalsList (t + x) (i + 1) rest).countP
          (fun e => e.2.customer_id = i) = 0 :=
        List.countP_eq_zero.mpr (fun e he => by
          have := arrivalsList_cid rest (t + x) (i + 1) e he
          simp only [decide_eq_true_eq]
          omega)
      rw [h0]
      simp
    · rw [if_neg (by simp [hc])]
      have := ih (t + x) (i + 1) cid
      omega

theorem arrivalsList_countEv : ∀ (l : List ℚ) (t : ℚ) (i : Nat),
    countEv (arrivalsList t i l) EType.arrival = l.length ∧
    countEv (arrivalsList t i l) EType.service_start = 0 ∧
    countEv (arrivalsList t i l) EType.service_end = 0 := by
  intro l
  induction l with
  | nil => intro t i; exact ⟨rfl, rfl, rfl⟩
  | cons x rest ih =>
    intro t i
    obtain ⟨h1, h2, h3⟩ := ih (t + x) (i + 1)
    unfold countEv at h1 h2 h3 ⊢
    rw [arrivalsList]
    simp only [List.countP_cons, List.length_cons]
    refine ⟨?_, ?_, ?_⟩ <;> simp [h1, h2, h3]

theorem initState_Inv (ns : Nat) (st : ℚ) (inter : List ℚ) (hns : 0 < ns)
    (hst : 0 ≤ st) (hint : ∀ x ∈ inter, 0 ≤ x) :
    Inv inter.length (initState ns st inter) := by
  have hperm := scheduleArrivals_perm inter [] 0 0
  have hmem : ∀ e ∈ scheduleArrivals ([] : List (ℚ × Event)) 0 0 inter,
      e ∈ arrivalsList 0 0 inter := by
    intro e he
    have := hperm.mem_iff.mp he
    simpa using this
  have hcnt : ∀ p : (ℚ × Event) → Bool,
      (scheduleArrivals ([] : List (ℚ × Event)) 0 0 inter).countP p =
      (arrivalsList 0 0 inter).countP p := by
    intro p
    rw [hperm.countP_eq]
    simp
  refine ⟨hns, hst, ?_, ?_, ?_, le_refl 0, ?_, ?_, ?_, ?_, ?_, ?_, ?_, ?_, ?_, ?_,
    ?_, ?_, ?_, ?_, ?_, ?_⟩
  · simp [initState]
  · simp [initState]
  · exact scheduleArrivals_MinHeap inter [] 0 0 MinHeap_nil
  · intro e he
    exact arrivalsList_time inter 0 0 e hint (hmem e he)
  · dsimp only [initState]
    unfold countEv
    rw [hcnt, hcnt, hcnt]
    have h1 := arrivalsList_countEv inter 0 0
    unfold countEv at h1
    simp only [List.length_nil]
    omega
  · intro hcon
    exact absurd rfl hcon
  · intro cid
    dsimp only [initState]
    unfold countCid
    rw [hcnt]
    have := arrivalsList_countCid inter 0 0 cid
    unfold countCid at this
    exact this
  · intro e he _
    constructor
    · intro hcon
      have := (List.mem_replicate.mp hcon).2
      cases this
    · dsimp only [initState]
      simp
  · intro e he hety
    have := arrivalsList_type inter 0 0 e (hmem e he)
    rw [hety] at this
    cases this
  · intro e he hety
    have := arrivalsList_type inter 0 0 e (hmem e he)
    rw [hety] at this
    cases this
  · intro i j cid hi _
    have := (List.mem_replicate.mp (List.mem_iff_getElem?.mpr ⟨i, hi⟩)).2
    cases this
  · intro i cid hi
    have := (List.mem_replicate.mp (List.mem_iff_getElem?.mpr ⟨i, hi⟩)).2
    cases this
  · intro cid hcon
    have := (List.mem_replicate.mp hcon).2
    cases this
  · intro c hc
    cases hc
  · exact List.nodup_nil
  · intro b hb
    dsimp only [initState] at hb ⊢
    rw [List.eq_of_mem_replicate hb]
  · intro b hb
    dsimp only [initState] at hb ⊢
    rw [List.eq_of_mem_replicate hb]
  · intro u hu
    cases hu
  · intro u hu
    cases hu

theorem W_init (ns : Nat) (st : ℚ) (inter : List ℚ) :
    W (initState ns st inter) = 3 * inter.length := by
  have hperm := scheduleArrivals_perm inter [] 0 0
  have hcnt : ∀ p : (ℚ × Event) → Bool,
      (scheduleArrivals ([] : List (ℚ × Event)) 0 0 inter).countP p =
      (arrivalsList 0 0 inter).countP p := by
    intro p
    rw [hperm.countP_eq]
    simp
  unfold W
  dsimp only [initState]
  unfold countEv
  rw [hcnt, hcnt, hcnt]
  have h1 := arrivalsList_countEv inter 0 0
  unfold countEv at h1
  simp only [List.length_nil]
  omega

theorem reach_Inv {n : Nat} {s0 s : SimState} (h0 : Inv n s0) (hr : Reach s0 s) :
    Inv n s := by
  induction hr with
  | refl => exact h0
  | next hr hstep ih =>
    rename_i s' b s1
    by_cases hfe : s'.future_events = []
    · rw [step_terminal hfe] at hstep
      injection hstep with h1
      injection h1 with hb hs
      rw [← hs]
      exact ih
    · obtain ⟨s2, heq, hInv2, _⟩ := step_ok ih hfe
      rw [heq] at hstep
      injection hstep with h1
      injection h1 with hb hs
      rw [← hs]
      exact hInv2

/-- C4: on every reachable state of a simulator built with valid parameters,
`step` returns `False` exactly when the future-event list is empty — and then
returns the state unchanged — while on a non-empty scheduler it applies one
event and returns `True`, never propagating the empty-queue error. -/
theorem C4_step_terminal_iff_empty (ns : Nat) (st : ℚ) (inter : List ℚ)
    (hns : 0 < ns) (hst : 0 ≤ st) (hint : ∀ x ∈ inter, 0 ≤ x)
    {s : SimState} (hr : Reach (initState ns st inter) s) :
    (s.future_events = [] → step s = Except.ok (false, s)) ∧
    (s.future_events ≠ [] → ∃ s1, step s = Except.ok (true, s1)) := by
  have hInv := reach_Inv (initState_Inv ns st inter hns hst hint) hr
  refine ⟨fun hfe => step_terminal hfe, fun hne => ?_⟩
  obtain ⟨s1, h1, _, _⟩ := step_ok hInv hne
  exact ⟨s1, h1⟩

/-- Witness for C4 at a freshly constructed one-server simulator. -/
theorem C4_step_terminal_iff_empty_witness :
    ((initState 1 5 [1]).future_events = [] →
      step (initState 1 5 [1]) = Except.ok (false, initState 1 5 [1])) ∧
    ((initState 1 5 [1]).future_events ≠ [] →
      ∃ s1, step (initState 1 5 [1]) = Except.ok (true, s1)) :=
  C4_step_terminal_iff_empty 1 5 [1] (by norm_num) (by norm_num)
    (by intro x hx; rw [List.mem_singleton.mp hx]; norm_num) Reach.refl

/-- C5: with positive parameters and strictly positive interarrival samples,
`3 * n` calls to `step` reach the terminal state (so the run terminates), and
there `num_served` equals the customer count `n` and every recorded queue
length is non-negative. -/
theorem C5_run_terminates_and_serves_all (ns : Nat) (st : ℚ) (inter : List ℚ)
    (hns : 0 < ns) (hst : 0 < st) (hint : ∀ x ∈ inter, 0 < x) :
    ∃ s1, runFuel (3 * inter.length) (initState ns st inter) = Except.ok s1 ∧
      step s1 = Except.ok (false, s1) ∧
      s1.metrics.num_served = inter.length ∧
      ∀ q ∈ s1.queue_length_history, 0 ≤ q := by
  have hInv := initState_Inv ns st inter hns (le_of_lt hst)
    (fun x hx => le_of_lt (hint x hx))
  obtain ⟨s1, hrun, hInv1, hfe⟩ := runFuel_terminal (3 * inter.length) _ hInv
    (le_of_eq (W_init ns st inter))
  exact ⟨s1, hrun, step_terminal hfe, (terminal_served hInv1 hfe).1,
    fun q _ => Nat.zero_le q⟩

/-- Witness for C5 at a one-server, one-customer simulator. -/
theorem C5_run_terminates_and_serves_all_witness :
    ∃ s1, runFuel (3 * [(1 : ℚ)].length) (initState 1 5 [1]) = Except.ok s1 ∧
      step s1 = Except.ok (false, s1) ∧
      s1.metrics.num_served = [(1 : ℚ)].length ∧
      ∀ q ∈ s1.queue_length_history, 0 ≤ q :=
  C5_run_terminates_and_serves_all 1 5 [1] (by norm_num) (by norm_num)
    (by intro x hx; rw [List.mem_singleton.mp hx]; norm_num)

/-- C7: in every reachable state, a customer id occupies at most one server
slot, and no id is simultaneously in a slot and in the waiting line. -/
theorem C7_slot_occupancy_exclusive (ns : Nat) (st : ℚ) (inter : List ℚ)
    (hns : 0 < ns) (hst : 0 ≤ st) (hint : ∀ x ∈ inter, 0 ≤ x)
    {s : SimState} (hr : Reach (initState ns st inter) s) :
    (∀ (i j cid : Nat), s.servers[i]? = some (some cid) →
      s.servers[j]? = some (some cid) → i = j) ∧
    (∀ cid : Nat, inSlot s.servers cid → cid ∉ s.waiting_line) := by
  have hInv := reach_Inv (initState_Inv ns st inter hns hst hint) hr
  exact ⟨hInv.slot_unique, hInv.slot_wait⟩

/-- Witness for C7 at a freshly constructed simulator. -/
theorem C7_slot_occupancy_exclusive_witness :
    (∀ (i j cid : Nat), (initState 1 5 [1]).servers[i]? = some (some cid) →
      (initState 1 5 [1]).servers[j]? = some (some cid) → i = j) ∧
    (∀ cid : Nat, inSlot (initState 1 5 [1]).servers cid →
      cid ∉ (initState 1 5 [1]).waiting_line) :=
  C7_slot_occupancy_exclusive 1 5 [1] (by norm_num) (by norm_num)
    (by intro x hx; rw [List.mem_singleton.mp hx]; norm_num) Reach.refl

/-- C8: in every reachable state, every entry of `utilization_history` and of
`cumulative_utilization_history` lies in the closed interval `[0, 1]`. -/
theorem C8_utilization_bounds (ns : Nat) (st : ℚ) (inter : List ℚ)
    (hns : 0 < ns) (hst : 0 ≤ st) (hint : ∀ x ∈ inter, 0 ≤ x)
    {s : SimState} (hr : Reach (initState ns st inter) s) :
    (∀ u ∈ s.utilization_history, 0 ≤ u ∧ u ≤ 1) ∧
    (∀ u ∈ s.cumulative_utilization_history, 0 ≤ u ∧ u ≤ 1) := by
  have hInv := reach_Inv (initState_Inv ns st inter hns hst hint) hr
  exact ⟨hInv.util_hist, hInv.cum_hist⟩

/-- Witness for C8 at a freshly constructed simulator. -/
theorem C8_utilization_bounds_witness :
    (∀ u ∈ (initState 1 5 [1]).utilization_history, 0 ≤ u ∧ u ≤ 1) ∧
    (∀ u ∈ (initState 1 5 [1]).cumulative_utilization_history, 0 ≤ u ∧ u ≤ 1) :=
  C8_utilization_bounds 1 5 [1] (by norm_num) (by norm_num)
    (by intro x hx; rw [List.mem_singleton.mp hx]; norm_num) Reach.refl

/-- C6 (amended): a `SERVICE_START` event whose subject is absent from the
customer table makes `step` abort with an uncaught `KeyError`; but a
`SERVICE_END` event whose subject occupies no server slot is NOT a fatal
error — the loop finds no slot, `step` completes normally returning `True`,
and `num_served` is still incremented. -/
theorem C6_inconsistent_state_amended {s : SimState} {t : ℚ} {ev : Event} {fe : List (ℚ × Event)}
    (hrm : removeMin s.future_events = some ((t, ev), fe)) :
    (ev.event_type = EType.service_start →
      lookupC s.customers ev.customer_id = none →
      step s = Except.error (SimErr.keyError ev.customer_id)) ∧
    (ev.event_type = EType.service_end →
      findServing ev.customer_id s.servers = none →
      ∃ s1, step s = Except.ok (true, s1) ∧
        s1.metrics.num_served = s.metrics.num_served + 1) := by
  have hne : s.future_events ≠ [] := by
    intro hc
    rw [hc] at hrm
    cases hrm
  have hemp : ¬ is_empty s.future_events = true := by
    intro hb
    exact hne ((is_empty_iff _).mp hb)
  constructor
  · intro hty hlk
    rw [step, if_neg hemp, hrm]
    dsimp only
    rw [hty]
    dsimp only
    rw [serviceStartH]
    dsimp only
    rw [hlk]
  · intro hty hfs
    rw [step, if_neg hemp, hrm]
    dsimp only
    rw [hty]
    dsimp only
    rw [serviceEndH]
    dsimp only
    rw [hfs]
    exact ⟨_, rfl, rfl⟩

/-- A concrete state whose next event is a `SERVICE_END` for a customer that
occupies no server slot. -/
def c6state : SimState :=
  { num_servers := 1, service_time := 5,
    future_events := [(0, ⟨0, EType.service_end, 0⟩)],
    waiting_line := [], servers := [none], customers := [],
    metrics := { total_wait_time := 0, num_served := 0, server_busy_time := [0],
                 simulation_end := 0 },
    current_time := 0, queue_length_history := [], utilization_history := [],
    time_history := [], cumulative_utilization_history := [] }

/-- C6 counterexample: processing a `SERVICE_END` whose subject is in no
server slot does NOT halt with an error — `step` returns `Except.ok` (with
`num_served` incremented to 1), refuting the claim that this situation aborts
the simulation. -/
theorem C6_inconsistent_state_counterexample :
    step c6state = Except.ok (true,
      { num_servers := 1, service_time := 5,
        future_events := [], waiting_line := [], servers := [none], customers := [],
        metrics := { total_wait_time := 0, num_served := 1, server_busy_time := [0],
                     simulation_end := 0 },
        current_time := 0, queue_length_history := [0], utilization_history := [0],
        time_history := [0], cumulative_utilization_history := [0] }) := by
  unfold c6state
  rw [step]
  rw [if_neg (by simp [is_empty])]
  rw [show removeMin [((0 : ℚ), (⟨0, EType.service_end, 0⟩ : Event))] =
    some ((0, ⟨0, EType.service_end, 0⟩), []) from by
      simp [removeMin, swapL, downheap, left]]
  dsimp only
  rw [serviceEndH]
  dsimp only
  rw [show findServing 0 ([none] : List (Option Nat)) = none from rfl]
  dsimp only [record]
  norm_num [countBusy]

/-- Witness for the amended C6 at the concrete inconsistent state. -/
theorem C6_inconsistent_state_amended_witness :
    ∃ s1, step c6state = Except.ok (true, s1) ∧
      s1.metrics.num_served = c6state.metrics.num_served + 1 :=
  (@C6_inconsistent_state_amended c6state 0 ⟨0, EType.service_end, 0⟩ []
    (by simp [c6state, removeMin, swapL, downheap, left])).2 rfl rfl

end TicketSim
